import Mathlib

/-!
Verification of the Static Large Object (SLO) middleware
(`swift/common/middleware/slo.py`).

The development shallowly embeds the middleware's core data model and
algorithms:

* the stored-manifest data model (`StoredSeg`) and the recursive,
  range-windowed segment listing iterator
  (`SloGetContext._segment_listing_iterator`), instrumented with an event
  trace recording sub-manifest fetches and yielded `(entry, start, end)`
  tuples;
* the GET/HEAD manifest response computation
  (`SloGetContext.get_or_head_response`);
* manifest PUT validation (`parse_and_validate_input`) and the segment
  verification loop of `StaticLargeObject.handle_multipart_put`,
  including range normalization and composite-ETag accumulation;
* the cascading-delete queue
  (`StaticLargeObject.get_segments_to_delete_iter`).

Machine integers are embedded as `Int` (Python integers are unbounded).
Byte strings of stored objects are embedded as `List Nat`.  The MD5 hash
itself (`hashlib.md5`, external to the middleware) is not modelled;
instead every theorem about a composite ETag speaks about the exact byte
string fed to the running hash (`etagInput`), which determines the digest.
-/

/-! ## Integer-indexed list slices

`sliceIL xs f l` is the sublist of `xs` at positions `p` with
`f ≤ p ≤ l`, positions being `Int` (negative lower bounds clamp to `0`,
an upper bound below the lower bound yields `[]`).  This is the meaning
of "bytes `f..l` of an object" used throughout the spec.
-/

def sliceIL (xs : List Nat) (f l : Int) : List Nat :=
  (xs.take (l + 1).toNat).drop f.toNat

theorem sliceIL_nil (f l : Int) : sliceIL [] f l = [] := by
  simp [sliceIL]

theorem sliceIL_length (xs : List Nat) (f l : Int) :
    (sliceIL xs f l).length = min (l + 1).toNat xs.length - f.toNat := by
  simp [sliceIL]

theorem sliceIL_eq_nil_of_le (xs : List Nat) (f l : Int) (h : l + 1 ≤ f) :
    sliceIL xs f l = [] := by
  apply List.eq_nil_of_length_eq_zero
  rw [sliceIL_length]
  omega

theorem sliceIL_eq_nil_of_length_le (xs : List Nat) (f l : Int)
    (h : (xs.length : Int) ≤ f) : sliceIL xs f l = [] := by
  apply List.eq_nil_of_length_eq_zero
  rw [sliceIL_length]
  omega

theorem sliceIL_eq_nil_of_neg (xs : List Nat) (f l : Int) (h : l < 0) :
    sliceIL xs f l = [] := by
  apply List.eq_nil_of_length_eq_zero
  rw [sliceIL_length]
  omega

theorem sliceIL_length_of_window (xs : List Nat) (f l : Int)
    (h0 : 0 ≤ f) (hfl : f ≤ l) (hl : l < (xs.length : Int)) :
    ((sliceIL xs f l).length : Int) = l - f + 1 := by
  rw [sliceIL_length]
  omega

theorem sliceIL_append (c r : List Nat) (f l L : Int)
    (hc : (c.length : Int) = L) :
    sliceIL (c ++ r) f l = sliceIL c f l ++ sliceIL r (f - L) (l - L) := by
  unfold sliceIL
  rw [List.take_append_eq_append_take, List.drop_append_eq_append_drop]
  congr 1
  rw [List.length_take]
  by_cases h : (c.length : Int) ≤ l + 1
  · have h1 : (l + 1).toNat - c.length = (l - L + 1).toNat := by omega
    have h2 : f.toNat - min (l + 1).toNat c.length = (f - L).toNat := by omega
    rw [h1, h2]
  · have h1 : (l + 1).toNat - c.length = 0 := by omega
    have h2 : (l - L + 1).toNat = 0 := by omega
    simp [h1, h2]

theorem sliceIL_clamp (xs : List Nat) (f l L : Int)
    (hlen : (xs.length : Int) = L) :
    sliceIL xs f l = sliceIL xs (max 0 f) (min (L - 1) l) := by
  unfold sliceIL
  have h1 : f.toNat = (max 0 f).toNat := by omega
  by_cases h : l ≤ L - 1
  · have hm : min (L - 1) l = l := by omega
    rw [hm, h1]
  · have hm : min (L - 1) l = L - 1 := by omega
    rw [hm, ← h1]
    congr 1
    rw [List.take_of_length_le (by omega), List.take_of_length_le (by omega)]

theorem sliceIL_sliceIL (xs : List Nat) (a b f l : Int) (ha : 0 ≤ a) :
    sliceIL (sliceIL xs a b) f l = sliceIL xs (a + max 0 f) (min b (a + l)) := by
  by_cases hl : l < 0
  · rw [sliceIL_eq_nil_of_neg _ _ _ hl]
    rw [sliceIL_eq_nil_of_le]
    omega
  · unfold sliceIL
    rw [List.take_drop, List.take_take, List.drop_drop]
    have h1 : a.toNat + f.toNat = (a + max 0 f).toNat := by omega
    have h2 : min (a.toNat + (l + 1).toNat) (b + 1).toNat
        = (min b (a + l) + 1).toNat := by omega
    rw [h1, h2]

/-! ## Stored manifest data model

A `StoredSeg` is one entry of a stored SLO manifest as the middleware
writes it (`handle_multipart_put`) and reads it back
(`_segment_listing_iterator`, `get_or_head_response`): `name` is the
`/container/object` path, `hash` the observed segment ETag, `bytes` the
observed segment length (for a `sub_slo` entry, the logical total carried
by the `swift_bytes` content-type parameter, which
`override_bytes_from_content_type` installs into `bytes` before the
iterator runs), `range` the optional normalized concrete byte range
`(A, B)` (serialized as `"A-B"` in the stored JSON), and `sub_slo`
whether the referenced object is itself an SLO manifest.
-/

structure StoredSeg where
  name : String
  hash : String
  bytes : Int
  range : Option (Int × Int)
  sub_slo : Bool
deriving DecidableEq

/-- `SloGetContext._segment_length`: the number of bytes a stored entry
contributes to the logical concatenation (range length if ranged, else
`bytes`). -/
def segLength (e : StoredSeg) : Int :=
  match e.range with
  | some (a, b) => b - a + 1
  | none => e.bytes

def totalLength (segs : List StoredSeg) : Int :=
  (segs.map segLength).sum

/-- `range_start` of the entry's internal source range (`0` when the
entry has no stored range). -/
def rsOf (e : StoredSeg) : Int :=
  match e.range with
  | none => 0
  | some (a, _) => a

/-- `range_end` of the entry's internal source range (`seg_length - 1`
when the entry has no stored range). -/
def reOf (e : StoredSeg) : Int :=
  match e.range with
  | none => segLength e - 1
  | some (_, b) => b

/-- The cluster of stored manifests, keyed by `/container/object` path:
what `_fetch_sub_slo_segments` would GET and JSON-decode.  A missing key
models a failing sub-request. -/
abbrev Store := List (String × List StoredSeg)

def lookupStore (store : Store) (n : String) : Option (List StoredSeg) :=
  match store.find? (fun p => p.1 == n) with
  | some p => some p.2
  | none => none

/-- The bytes of ordinary (leaf) objects, keyed by path. -/
abbrev ObjStore := List (String × List Nat)

def lookupObj (o : ObjStore) (n : String) : List Nat :=
  match o.find? (fun p => p.1 == n) with
  | some p => p.2
  | none => []

/-- Observable steps of the segment listing iterator: a sub-manifest
fetch (`_fetch_sub_slo_segments`) or a yielded
`(seg_dict, start_byte, end_byte)` tuple. -/
inductive Event where
  | fetch (path : String)
  | yieldSeg (e : StoredSeg) (startByte endByte : Int)
deriving DecidableEq

/-- A `ListingIterError` raised by the iterator: either the recursion
depth bound was hit, or a sub-manifest GET failed. -/
inductive ErrKind where
  | depthExceeded
  | fetchFailed (path : String)
deriving DecidableEq

/-- Result of running the iterator: the events it produced, in order,
and the error that aborted it (`none` when it ran to completion). -/
structure IterOut where
  events : List Event
  err : Option ErrKind
deriving DecidableEq

/-- The one-entry sub-manifest cache (`last_sub_path` plus the segments
fetched for it). -/
def cacheLookup (cache : Option (String × List StoredSeg)) (n : String) :
    Option (List StoredSeg) :=
  match cache with
  | some (p, ch) => if p = n then some ch else none
  | none => none

/-- One recursion level of `SloGetContext._segment_listing_iterator`
(the `for seg_dict in segments` loop, lines 410-465 of `slo.py`), with
the state `(first_byte, last_byte)` passed explicitly.  `sub` is the
next-deeper recursion level; `atLimit` is true when
`recursion_depth >= max_slo_recursion_depth`, in which case an active
sub-manifest entry raises before being fetched. -/
def iterLevel (store : Store)
    (sub : List StoredSeg → Int → Int → Option (String × List StoredSeg) → IterOut)
    (atLimit : Bool) :
    List StoredSeg → Int → Int → Option (String × List StoredSeg) → IterOut
  | [], _, _, _ => ⟨[], none⟩
  | e :: rest, f, l, cache =>
    if segLength e ≤ f then
      iterLevel store sub atLimit rest (f - segLength e) (l - segLength e) cache
    else if l < 0 then ⟨[], none⟩
    else if e.sub_slo then
      if atLimit then ⟨[], some ErrKind.depthExceeded⟩
      else
        match cacheLookup cache e.name with
        | some ch =>
          match sub ch (rsOf e + max 0 f) (min (reOf e) (rsOf e + l)) none with
          | ⟨sevs, some err⟩ => ⟨sevs, some err⟩
          | ⟨sevs, none⟩ =>
            match iterLevel store sub atLimit rest (f - segLength e)
                (l - segLength e) (some (e.name, ch)) with
            | ⟨revs, rerr⟩ => ⟨sevs ++ revs, rerr⟩
        | none =>
          match lookupStore store e.name with
          | none => ⟨[Event.fetch e.name], some (ErrKind.fetchFailed e.name)⟩
          | some ch =>
            match sub ch (rsOf e + max 0 f) (min (reOf e) (rsOf e + l)) none with
            | ⟨sevs, some err⟩ => ⟨Event.fetch e.name :: sevs, some err⟩
            | ⟨sevs, none⟩ =>
              match iterLevel store sub atLimit rest (f - segLength e)
                  (l - segLength e) (some (e.name, ch)) with
              | ⟨revs, rerr⟩ => ⟨Event.fetch e.name :: (sevs ++ revs), rerr⟩
    else
      match iterLevel store sub atLimit rest (f - segLength e)
          (l - segLength e) cache with
      | ⟨revs, rerr⟩ =>
        ⟨Event.yieldSeg e (max 0 f + rsOf e) (min (reOf e) (rsOf e + l)) :: revs,
         rerr⟩

/-- `_segment_listing_iterator` at a given remaining recursion budget.
The source checks `recursion_depth >= max_slo_recursion_depth` before
fetching; `fuel` stands for `max_slo_recursion_depth - recursion_depth`,
so `fuel = 0` means the bound is hit as soon as an active sub-manifest
entry is encountered. -/
def iterSegs (store : Store) (fuel : Nat) :
    List StoredSeg → Int → Int → Option (String × List StoredSeg) → IterOut :=
  match fuel with
  | 0 => iterLevel store (fun _ _ _ _ => ⟨[], none⟩) true
  | fuel' + 1 => iterLevel store (iterSegs store fuel') false

/-- `SloGetContext.max_slo_recursion_depth`. -/
def maxSloRecursionDepth : Nat := 10

/-- The full `_segment_listing_iterator` entry point (recursion depth
starts at `1`): an unset window (`none`) is initialized to `0`
(for `first_byte`) and `total_length - 1` (for `last_byte`), computed
over the top-level entries before iteration. -/
def segmentListingIterator (store : Store) (segs : List StoredSeg)
    (firstByte lastByte : Option Int) : IterOut :=
  iterSegs store (maxSloRecursionDepth - 1) segs
    (firstByte.getD 0) (lastByte.getD (totalLength segs - 1)) none

/-- The bytes denoted by one iterator event: a yielded tuple
`(entry, start, end)` stands for `entry.object[start..end]`. -/
def eventBytes (o : ObjStore) : Event → List Nat
  | Event.fetch _ => []
  | Event.yieldSeg e s t => sliceIL (lookupObj o e.name) s t

/-- Concatenation of `entry.object[start..end]` over an event trace. -/
def yieldedBytes (o : ObjStore) (evs : List Event) : List Nat :=
  (evs.map (eventBytes o)).flatten

theorem yieldedBytes_nil (o : ObjStore) : yieldedBytes o [] = [] := rfl

theorem yieldedBytes_cons (o : ObjStore) (e : Event) (evs : List Event) :
    yieldedBytes o (e :: evs) = eventBytes o e ++ yieldedBytes o evs := rfl

theorem yieldedBytes_append (o : ObjStore) (a b : List Event) :
    yieldedBytes o (a ++ b) = yieldedBytes o a ++ yieldedBytes o b := by
  simp [yieldedBytes]

/-! ## Logical concatenation of a stored manifest

`concatSegs` is the spec-side denotation `concat(M)`: the byte string a
full GET of the manifest must produce.  Each entry contributes its
object's bytes (or, for a `sub_slo` entry, the recursive concatenation
of its sub-manifest), restricted to the entry's stored range if any.
-/

def concatLevel (store : Store) (o : ObjStore)
    (subConcat : List StoredSeg → List Nat) (atLimit : Bool) :
    List StoredSeg → List Nat
  | [] => []
  | e :: rest =>
    (match e.range with
     | some (a, b) =>
       sliceIL
         (if e.sub_slo then
            if atLimit then []
            else
              match lookupStore store e.name with
              | some ch => subConcat ch
              | none => []
          else lookupObj o e.name) a b
     | none =>
       (if e.sub_slo then
          if atLimit then []
          else
            match lookupStore store e.name with
            | some ch => subConcat ch
            | none => []
        else lookupObj o e.name)) ++ concatLevel store o subConcat atLimit rest

def concatSegs (store : Store) (o : ObjStore) (fuel : Nat) :
    List StoredSeg → List Nat :=
  match fuel with
  | 0 => concatLevel store o (fun _ => []) true
  | fuel' + 1 => concatLevel store o (concatSegs store o fuel') false

/-! ## Well-formedness of stored manifests

`wfStruct` captures the invariants the middleware itself establishes for
stored manifests (spec section 3): any stored range is concrete with
`0 ≤ A ≤ B < bytes`, `bytes` is non-negative, and a `sub_slo` entry
resolves in the store to a manifest whose recursively-expanded total
effective length equals the entry's `bytes` (the `swift_bytes` value),
within the given recursion budget.  `leavesMatch` additionally ties leaf
entries to the object store: the referenced object has exactly `bytes`
bytes.  `allPos` states that every (recursively reachable) entry has
effective length at least 1.
-/

def rangeOk (e : StoredSeg) : Bool :=
  match e.range with
  | none => decide (0 ≤ e.bytes)
  | some (a, b) => decide (0 ≤ a) && decide (a ≤ b) && decide (b < e.bytes)

def wfLevel (store : Store) (subWf : List StoredSeg → Bool) (atLimit : Bool) :
    List StoredSeg → Bool
  | [] => true
  | e :: rest =>
    rangeOk e &&
    (if e.sub_slo then
      !atLimit &&
      (match lookupStore store e.name with
       | some ch => decide (e.bytes = totalLength ch) && subWf ch
       | none => false)
     else true) &&
    wfLevel store subWf atLimit rest

def wfStruct (store : Store) (fuel : Nat) : List StoredSeg → Bool :=
  match fuel with
  | 0 => wfLevel store (fun _ => false) true
  | fuel' + 1 => wfLevel store (wfStruct store fuel') false

def leavesLevel (store : Store) (o : ObjStore) (subOk : List StoredSeg → Bool) :
    List StoredSeg → Bool
  | [] => true
  | e :: rest =>
    (if e.sub_slo then
       match lookupStore store e.name with
       | some ch => subOk ch
       | none => true
     else decide (((lookupObj o e.name).length : Int) = e.bytes)) &&
    leavesLevel store o subOk rest

def leavesMatch (store : Store) (o : ObjStore) (fuel : Nat) :
    List StoredSeg → Bool :=
  match fuel with
  | 0 => leavesLevel store o (fun _ => true)
  | fuel' + 1 => leavesLevel store o (leavesMatch store o fuel')

def posLevel (store : Store) (subPos : List StoredSeg → Bool) :
    List StoredSeg → Bool
  | [] => true
  | e :: rest =>
    decide (1 ≤ segLength e) &&
    (if e.sub_slo then
       match lookupStore store e.name with
       | some ch => subPos ch
       | none => true
     else true) &&
    posLevel store subPos rest

def allPos (store : Store) (fuel : Nat) : List StoredSeg → Bool :=
  match fuel with
  | 0 => posLevel store (fun _ => true)
  | fuel' + 1 => posLevel store (allPos store fuel')

/-- Invariant of the one-entry sub-manifest cache: whatever is cached is
exactly what the store holds under that path. -/
def cacheOK (store : Store) : Option (String × List StoredSeg) → Prop
  | none => True
  | some (p, ch) => lookupStore store p = some ch

/-! ### Destructuring lemmas for the well-formedness predicates -/

theorem wfLevel_cons (store : Store) (subWf : List StoredSeg → Bool)
    (atLimit : Bool) (e : StoredSeg) (rest : List StoredSeg)
    (h : wfLevel store subWf atLimit (e :: rest) = true) :
    rangeOk e = true ∧ wfLevel store subWf atLimit rest = true ∧
      (e.sub_slo = true → atLimit = false ∧
        ∃ ch, lookupStore store e.name = some ch ∧
          e.bytes = totalLength ch ∧ subWf ch = true) := by
  simp only [wfLevel, Bool.and_eq_true] at h
  obtain ⟨⟨h1, h2⟩, h3⟩ := h
  refine ⟨h1, h3, ?_⟩
  intro hs
  rw [hs] at h2
  simp only [if_true] at h2
  cases hch : lookupStore store e.name with
  | none => rw [hch] at h2; simp at h2
  | some ch =>
    rw [hch] at h2
    simp only [Bool.and_eq_true, Bool.not_eq_eq_eq_not, Bool.not_true,
      decide_eq_true_eq] at h2
    exact ⟨h2.1, ch, rfl, h2.2.1, h2.2.2⟩

theorem leavesLevel_cons (store : Store) (o : ObjStore)
    (subOk : List StoredSeg → Bool) (e : StoredSeg) (rest : List StoredSeg)
    (h : leavesLevel store o subOk (e :: rest) = true) :
    leavesLevel store o subOk rest = true ∧
      (e.sub_slo = false → ((lookupObj o e.name).length : Int) = e.bytes) ∧
      (∀ ch, e.sub_slo = true → lookupStore store e.name = some ch →
        subOk ch = true) := by
  simp only [leavesLevel, Bool.and_eq_true] at h
  obtain ⟨h1, h2⟩ := h
  refine ⟨h2, ?_, ?_⟩
  · intro hs
    rw [hs] at h1
    simp at h1
    exact h1
  · intro ch hs hch
    rw [hs] at h1
    simp only [if_true] at h1
    rw [hch] at h1
    exact h1

theorem posLevel_cons (store : Store) (subPos : List StoredSeg → Bool)
    (e : StoredSeg) (rest : List StoredSeg)
    (h : posLevel store subPos (e :: rest) = true) :
    1 ≤ segLength e ∧ posLevel store subPos rest = true ∧
      (∀ ch, e.sub_slo = true → lookupStore store e.name = some ch →
        subPos ch = true) := by
  simp only [posLevel, Bool.and_eq_true, decide_eq_true_eq] at h
  obtain ⟨⟨h1, h2⟩, h3⟩ := h
  refine ⟨h1, h3, ?_⟩
  intro ch hs hch
  rw [hs] at h2
  simp only [if_true] at h2
  rw [hch] at h2
  exact h2

/-! ### Length of the logical concatenation -/

/-- The per-entry base of `concatSegs`: the full byte string the entry
refers to, before applying the entry's stored range. -/
def concatBase (store : Store) (o : ObjStore) (fuel : Nat) (e : StoredSeg) :
    List Nat :=
  if e.sub_slo then
    match fuel with
    | 0 => []
    | fuel' + 1 =>
      match lookupStore store e.name with
      | some ch => concatSegs store o fuel' ch
      | none => []
  else lookupObj o e.name

/-- The per-entry contribution of an entry to the logical concatenation. -/
def concatContrib (store : Store) (o : ObjStore) (fuel : Nat) (e : StoredSeg) :
    List Nat :=
  match e.range with
  | some (a, b) => sliceIL (concatBase store o fuel e) a b
  | none => concatBase store o fuel e

theorem concatSegs_nil (store : Store) (o : ObjStore) (fuel : Nat) :
    concatSegs store o fuel [] = [] := by
  cases fuel <;> simp [concatSegs, concatLevel]

theorem concatSegs_cons (store : Store) (o : ObjStore) (fuel : Nat)
    (e : StoredSeg) (rest : List StoredSeg) :
    concatSegs store o fuel (e :: rest)
      = concatContrib store o fuel e ++ concatSegs store o fuel rest := by
  cases fuel with
  | zero =>
    cases hr : e.range <;> cases hs : e.sub_slo <;>
      simp [concatSegs, concatLevel, concatContrib, concatBase, hr, hs]
  | succ n =>
    cases hr : e.range <;> cases hs : e.sub_slo <;>
      simp [concatSegs, concatLevel, concatContrib, concatBase, hr, hs]

theorem totalLength_nil : totalLength [] = 0 := rfl

theorem totalLength_cons (e : StoredSeg) (rest : List StoredSeg) :
    totalLength (e :: rest) = segLength e + totalLength rest := by
  simp [totalLength]

theorem rangeOk_some (e : StoredSeg) (a b : Int) (hro : rangeOk e = true)
    (hr : e.range = some (a, b)) : 0 ≤ a ∧ a ≤ b ∧ b < e.bytes := by
  unfold rangeOk at hro
  rw [hr] at hro
  simp only [Bool.and_eq_true, decide_eq_true_eq] at hro
  exact ⟨hro.1.1, hro.1.2, hro.2⟩

theorem rangeOk_none (e : StoredSeg) (hro : rangeOk e = true)
    (hr : e.range = none) : 0 ≤ e.bytes := by
  unfold rangeOk at hro
  rw [hr] at hro
  simpa using hro

theorem concatContrib_length (store : Store) (o : ObjStore) (fuel : Nat)
    (e : StoredSeg) (hro : rangeOk e = true)
    (hbase : ((concatBase store o fuel e).length : Int) = e.bytes) :
    ((concatContrib store o fuel e).length : Int) = segLength e := by
  cases hr : e.range with
  | none =>
    simp only [concatContrib, hr]
    rw [hbase]
    simp [segLength, hr]
  | some ab =>
    obtain ⟨a, b⟩ := ab
    obtain ⟨h1, h2, h3⟩ := rangeOk_some e a b hro hr
    simp only [concatContrib, hr]
    rw [sliceIL_length_of_window _ _ _ h1 h2 (by omega)]
    simp [segLength, hr]

theorem concatSegs_length (store : Store) (o : ObjStore) :
    ∀ fuel segs, wfStruct store fuel segs = true →
      leavesMatch store o fuel segs = true →
      ((concatSegs store o fuel segs).length : Int) = totalLength segs := by
  intro fuel
  induction fuel with
  | zero =>
    intro segs
    induction segs with
    | nil => intro _ _; simp [concatSegs_nil, totalLength_nil]
    | cons e rest ih =>
      intro hwf hlm
      obtain ⟨hro, hrest, hsub⟩ := wfLevel_cons _ _ _ _ _ hwf
      obtain ⟨hlrest, hleaf, _⟩ := leavesLevel_cons _ _ _ _ _ hlm
      rw [concatSegs_cons, totalLength_cons, List.length_append]
      push_cast
      rw [ih hrest hlrest]
      rw [concatContrib_length store o 0 e hro ?_]
      cases hs : e.sub_slo with
      | true => exact absurd (hsub hs).1 (by simp)
      | false => simp only [concatBase, hs, if_false]; exact hleaf hs
  | succ n ihf =>
    intro segs
    induction segs with
    | nil => intro _ _; simp [concatSegs_nil, totalLength_nil]
    | cons e rest ih =>
      intro hwf hlm
      obtain ⟨hro, hrest, hsub⟩ := wfLevel_cons _ _ _ _ _ hwf
      obtain ⟨hlrest, hleaf, hlsub⟩ := leavesLevel_cons _ _ _ _ _ hlm
      rw [concatSegs_cons, totalLength_cons, List.length_append]
      push_cast
      rw [ih hrest hlrest]
      rw [concatContrib_length store o (n + 1) e hro ?_]
      cases hs : e.sub_slo with
      | true =>
        obtain ⟨_, ch, hch, hbytes, hwfch⟩ := hsub hs
        simp only [concatBase, hs, if_true, hch]
        rw [ihf ch hwfch (hlsub ch hs hch), hbytes]
      | false =>
        simp only [concatBase, hs, if_false]
        exact hleaf hs

/-! ### Branch equations for the iterator -/

theorem iterLevel_nil (store : Store)
    (sub : List StoredSeg → Int → Int → Option (String × List StoredSeg) → IterOut)
    (atLimit : Bool) (f l : Int) (cache : Option (String × List StoredSeg)) :
    iterLevel store sub atLimit [] f l cache = ⟨[], none⟩ := rfl

theorem iterLevel_skip (store : Store)
    (sub : List StoredSeg → Int → Int → Option (String × List StoredSeg) → IterOut)
    (atLimit : Bool) (e : StoredSeg) (rest : List StoredSeg) (f l : Int)
    (cache : Option (String × List StoredSeg)) (h : segLength e ≤ f) :
    iterLevel store sub atLimit (e :: rest) f l cache
      = iterLevel store sub atLimit rest (f - segLength e) (l - segLength e)
          cache := by
  simp [iterLevel, h]

theorem iterLevel_stop (store : Store)
    (sub : List StoredSeg → Int → Int → Option (String × List StoredSeg) → IterOut)
    (atLimit : Bool) (e : StoredSeg) (rest : List StoredSeg) (f l : Int)
    (cache : Option (String × List StoredSeg))
    (h1 : ¬ segLength e ≤ f) (h2 : l < 0) :
    iterLevel store sub atLimit (e :: rest) f l cache = ⟨[], none⟩ := by
  simp [iterLevel, h1, h2]

theorem iterLevel_leaf (store : Store)
    (sub : List StoredSeg → Int → Int → Option (String × List StoredSeg) → IterOut)
    (atLimit : Bool) (e : StoredSeg) (rest : List StoredSeg) (f l : Int)
    (cache : Option (String × List StoredSeg))
    (h1 : ¬ segLength e ≤ f) (h2 : ¬ l < 0) (h3 : e.sub_slo = false) :
    iterLevel store sub atLimit (e :: rest) f l cache
      = ⟨Event.yieldSeg e (max 0 f + rsOf e) (min (reOf e) (rsOf e + l))
           :: (iterLevel store sub atLimit rest (f - segLength e)
                 (l - segLength e) cache).events,
         (iterLevel store sub atLimit rest (f - segLength e)
            (l - segLength e) cache).err⟩ := by
  simp only [iterLevel, h1, h2, h3, if_false, ite_false]
  cases iterLevel store sub atLimit rest (f - segLength e) (l - segLength e)
      cache
  rfl

theorem iterLevel_sub_limit (store : Store)
    (sub : List StoredSeg → Int → Int → Option (String × List StoredSeg) → IterOut)
    (e : StoredSeg) (rest : List StoredSeg) (f l : Int)
    (cache : Option (String × List StoredSeg))
    (h1 : ¬ segLength e ≤ f) (h2 : ¬ l < 0) (h3 : e.sub_slo = true) :
    iterLevel store sub true (e :: rest) f l cache
      = ⟨[], some ErrKind.depthExceeded⟩ := by
  simp [iterLevel, h1, h2, h3]

theorem iterLevel_sub_cached (store : Store)
    (sub : List StoredSeg → Int → Int → Option (String × List StoredSeg) → IterOut)
    (e : StoredSeg) (rest : List StoredSeg) (f l : Int)
    (cache : Option (String × List StoredSeg)) (ch : List StoredSeg)
    (h1 : ¬ segLength e ≤ f) (h2 : ¬ l < 0) (h3 : e.sub_slo = true)
    (hch : cacheLookup cache e.name = some ch) :
    iterLevel store sub false (e :: rest) f l cache
      = (match sub ch (rsOf e + max 0 f) (min (reOf e) (rsOf e + l)) none with
         | ⟨sevs, some err⟩ => ⟨sevs, some err⟩
         | ⟨sevs, none⟩ =>
           ⟨sevs ++ (iterLevel store sub false rest (f - segLength e)
                       (l - segLength e) (some (e.name, ch))).events,
            (iterLevel store sub false rest (f - segLength e)
               (l - segLength e) (some (e.name, ch))).err⟩) := by
  simp only [iterLevel, h1, h2, h3, if_false, ite_false, if_true, hch]
  cases sub ch (rsOf e + max 0 f) (min (reOf e) (rsOf e + l)) none with
  | mk sevs serr =>
    cases serr with
    | none =>
      cases iterLevel store sub false rest (f - segLength e) (l - segLength e)
          (some (e.name, ch))
      rfl
    | some err => rfl

theorem iterLevel_sub_fetch_fail (store : Store)
    (sub : List StoredSeg → Int → Int → Option (String × List StoredSeg) → IterOut)
    (e : StoredSeg) (rest : List StoredSeg) (f l : Int)
    (cache : Option (String × List StoredSeg))
    (h1 : ¬ segLength e ≤ f) (h2 : ¬ l < 0) (h3 : e.sub_slo = true)
    (hch : cacheLookup cache e.name = none)
    (hst : lookupStore store e.name = none) :
    iterLevel store sub false (e :: rest) f l cache
      = ⟨[Event.fetch e.name], some (ErrKind.fetchFailed e.name)⟩ := by
  simp [iterLevel, h1, h2, h3, hch, hst]

theorem iterLevel_sub_fetch (store : Store)
    (sub : List StoredSeg → Int → Int → Option (String × List StoredSeg) → IterOut)
    (e : StoredSeg) (rest : List StoredSeg) (f l : Int)
    (cache : Option (String × List StoredSeg)) (ch : List StoredSeg)
    (h1 : ¬ segLength e ≤ f) (h2 : ¬ l < 0) (h3 : e.sub_slo = true)
    (hch : cacheLookup cache e.name = none)
    (hst : lookupStore store e.name = some ch) :
    iterLevel store sub false (e :: rest) f l cache
      = (match sub ch (rsOf e + max 0 f) (min (reOf e) (rsOf e + l)) none with
         | ⟨sevs, some err⟩ => ⟨Event.fetch e.name :: sevs, some err⟩
         | ⟨sevs, none⟩ =>
           ⟨Event.fetch e.name ::
              (sevs ++ (iterLevel store sub false rest (f - segLength e)
                          (l - segLength e) (some (e.name, ch))).events),
            (iterLevel store sub false rest (f - segLength e)
               (l - segLength e) (some (e.name, ch))).err⟩) := by
  simp only [iterLevel, h1, h2, h3, if_false, ite_false, if_true, hch, hst]
  cases sub ch (rsOf e + max 0 f) (min (reOf e) (rsOf e + l)) none with
  | mk sevs serr =>
    cases serr with
    | none =>
      cases iterLevel store sub false rest (f - segLength e) (l - segLength e)
          (some (e.name, ch))
      rfl
    | some err => rfl

theorem iterSegs_zero (store : Store) :
    iterSegs store 0 = iterLevel store (fun _ _ _ _ => ⟨[], none⟩) true := rfl

theorem iterSegs_succ (store : Store) (n : Nat) :
    iterSegs store (n + 1) = iterLevel store (iterSegs store n) false := rfl

/-! ### The iterator reproduces the requested window (claim C1 core) -/

theorem contribLength_of_wf (store : Store) (o : ObjStore) (fuel : Nat)
    (e : StoredSeg) (rest : List StoredSeg)
    (hwf : wfStruct store fuel (e :: rest) = true)
    (hlm : leavesMatch store o fuel (e :: rest) = true) :
    ((concatContrib store o fuel e).length : Int) = segLength e := by
  cases fuel with
  | zero =>
    obtain ⟨hro, _, hsub⟩ := wfLevel_cons _ _ _ _ _ hwf
    obtain ⟨_, hleaf, _⟩ := leavesLevel_cons _ _ _ _ _ hlm
    apply concatContrib_length _ _ _ _ hro
    cases hs : e.sub_slo with
    | true => exact absurd (hsub hs).1 (by simp)
    | false =>
      simp only [concatBase, hs, Bool.false_eq_true, if_false]
      exact hleaf hs
  | succ n =>
    obtain ⟨hro, _, hsub⟩ := wfLevel_cons _ _ _ _ _ hwf
    obtain ⟨_, hleaf, hlsub⟩ := leavesLevel_cons _ _ _ _ _ hlm
    apply concatContrib_length _ _ _ _ hro
    cases hs : e.sub_slo with
    | true =>
      obtain ⟨_, ch, hch, hbytes, hwfch⟩ := hsub hs
      simp only [concatBase, hs, if_true, hch]
      rw [concatSegs_length store o n ch hwfch (hlsub ch hs hch), hbytes]
    | false =>
      simp only [concatBase, hs, Bool.false_eq_true, if_false]
      exact hleaf hs

/-- The tuple yielded for an active leaf entry denotes exactly the
window-restriction of the entry's contribution to the concatenation. -/
theorem leafYieldSlice (store : Store) (o : ObjStore) (fuel : Nat)
    (e : StoredSeg) (hs : e.sub_slo = false) (hro : rangeOk e = true)
    (hlen : ((lookupObj o e.name).length : Int) = e.bytes) (f l : Int) :
    sliceIL (lookupObj o e.name) (max 0 f + rsOf e)
        (min (reOf e) (rsOf e + l))
      = sliceIL (concatContrib store o fuel e) f l := by
  cases hr : e.range with
  | none =>
    simp only [concatContrib, concatBase, hr, hs, Bool.false_eq_true, if_false]
    rw [sliceIL_clamp (lookupObj o e.name) f l e.bytes hlen]
    simp only [rsOf, reOf, segLength, hr]
    norm_num
  | some ab =>
    obtain ⟨a, b⟩ := ab
    obtain ⟨h0a, _, _⟩ := rangeOk_some e a b hro hr
    simp only [concatContrib, concatBase, hr, hs, Bool.false_eq_true, if_false]
    rw [sliceIL_sliceIL _ a b f l h0a]
    simp only [rsOf, reOf, hr]
    rw [Int.add_comm a (max 0 f)]

/-- The sliced window passed to the recursive call on a sub-manifest
denotes exactly the window-restriction of the sub-entry's contribution. -/
theorem subWindowSlice (store : Store) (o : ObjStore) (n : Nat)
    (e : StoredSeg) (hs : e.sub_slo = true) (hro : rangeOk e = true)
    (ch : List StoredSeg) (hch : lookupStore store e.name = some ch)
    (hlen : ((concatSegs store o n ch).length : Int) = e.bytes) (f l : Int) :
    sliceIL (concatSegs store o n ch) (rsOf e + max 0 f)
        (min (reOf e) (rsOf e + l))
      = sliceIL (concatContrib store o (n + 1) e) f l := by
  cases hr : e.range with
  | none =>
    simp only [concatContrib, concatBase, hr, hs, if_true, hch]
    rw [sliceIL_clamp (concatSegs store o n ch) f l e.bytes hlen]
    simp only [rsOf, reOf, segLength, hr]
    norm_num
  | some ab =>
    obtain ⟨a, b⟩ := ab
    obtain ⟨h0a, _, _⟩ := rangeOk_some e a b hro hr
    simp only [concatContrib, concatBase, hr, hs, if_true, hch]
    rw [sliceIL_sliceIL _ a b f l h0a]
    simp only [rsOf, reOf, hr]

/-- From the cache invariant, a cache hit returns exactly what the store
holds. -/
theorem cacheLookup_ok (store : Store)
    (cache : Option (String × List StoredSeg)) (hcache : cacheOK store cache)
    (n : String) (ch : List StoredSeg) (h : cacheLookup cache n = some ch) :
    lookupStore store n = some ch := by
  cases cache with
  | none => simp [cacheLookup] at h
  | some pc =>
    obtain ⟨p, chc⟩ := pc
    by_cases hpe : p = n
    · subst hpe
      simp [cacheLookup] at h
      subst h
      exact hcache
    · simp [cacheLookup, hpe] at h

/-- Main correctness of `_segment_listing_iterator` over well-formed
stored manifests: it completes without a listing error and the
concatenation of `entry.object[start..end]` over its yielded tuples is
exactly the requested window of the manifest's logical concatenation.
Holds for every `Int` window `(f, l)`. -/
theorem iterSegs_concat (store : Store) (o : ObjStore) :
    ∀ fuel segs f l cache,
      wfStruct store fuel segs = true →
      leavesMatch store o fuel segs = true →
      cacheOK store cache →
      (iterSegs store fuel segs f l cache).err = none ∧
      yieldedBytes o (iterSegs store fuel segs f l cache).events
        = sliceIL (concatSegs store o fuel segs) f l := by
  intro fuel
  induction fuel with
  | zero =>
    intro segs
    induction segs with
    | nil =>
      intro f l cache _ _ _
      rw [iterSegs_zero, iterLevel_nil, concatSegs_nil, sliceIL_nil]
      exact ⟨rfl, rfl⟩
    | cons e rest ih =>
      intro f l cache hwf hlm hcache
      obtain ⟨hro, hwfrest, hsub⟩ := wfLevel_cons _ _ _ _ _ hwf
      obtain ⟨hlmrest, hleaf, _⟩ := leavesLevel_cons _ _ _ _ _ hlm
      have hclen : ((concatContrib store o 0 e).length : Int) = segLength e :=
        contribLength_of_wf store o 0 e rest hwf hlm
      by_cases hskip : segLength e ≤ f
      · rw [iterSegs_zero, iterLevel_skip _ _ _ _ _ _ _ _ hskip,
          ← iterSegs_zero]
        obtain ⟨ih1, ih2⟩ :=
          ih (f - segLength e) (l - segLength e) cache hwfrest hlmrest hcache
        refine ⟨ih1, ?_⟩
        have hnil : sliceIL (concatContrib store o 0 e) f l = [] :=
          sliceIL_eq_nil_of_length_le _ _ _ (by omega)
        rw [concatSegs_cons, sliceIL_append _ _ _ _ _ hclen, ih2, hnil,
          List.nil_append]
      · by_cases hstop : l < 0
        · rw [iterSegs_zero, iterLevel_stop _ _ _ _ _ _ _ _ hskip hstop,
            sliceIL_eq_nil_of_neg _ _ _ hstop]
          exact ⟨rfl, rfl⟩
        · cases hs : e.sub_slo with
          | true => exact absurd (hsub hs).1 (by simp)
          | false =>
            rw [iterSegs_zero, iterLevel_leaf _ _ _ _ _ _ _ _ hskip hstop hs,
              ← iterSegs_zero]
            obtain ⟨ih1, ih2⟩ :=
              ih (f - segLength e) (l - segLength e) cache hwfrest hlmrest
                hcache
            refine ⟨ih1, ?_⟩
            rw [yieldedBytes_cons, ih2, concatSegs_cons,
              sliceIL_append _ _ _ _ _ hclen]
            congr 1
            exact leafYieldSlice store o 0 e hs hro (hleaf hs) f l
  | succ n ihf =>
    intro segs
    induction segs with
    | nil =>
      intro f l cache _ _ _
      rw [iterSegs_succ, iterLevel_nil, concatSegs_nil, sliceIL_nil]
      exact ⟨rfl, rfl⟩
    | cons e rest ih =>
      intro f l cache hwf hlm hcache
      obtain ⟨hro, hwfrest, hsub⟩ := wfLevel_cons _ _ _ _ _ hwf
      obtain ⟨hlmrest, hleaf, hlsub⟩ := leavesLevel_cons _ _ _ _ _ hlm
      have hclen : ((concatContrib store o (n + 1) e).length : Int)
          = segLength e :=
        contribLength_of_wf store o (n + 1) e rest hwf hlm
      by_cases hskip : segLength e ≤ f
      · rw [iterSegs_succ, iterLevel_skip _ _ _ _ _ _ _ _ hskip,
          ← iterSegs_succ]
        obtain ⟨ih1, ih2⟩ :=
          ih (f - segLength e) (l - segLength e) cache hwfrest hlmrest hcache
        refine ⟨ih1, ?_⟩
        have hnil : sliceIL (concatContrib store o (n + 1) e) f l = [] :=
          sliceIL_eq_nil_of_length_le _ _ _ (by omega)
        rw [concatSegs_cons, sliceIL_append _ _ _ _ _ hclen, ih2, hnil,
          List.nil_append]
      · by_cases hstop : l < 0
        · rw [iterSegs_succ, iterLevel_stop _ _ _ _ _ _ _ _ hskip hstop,
            sliceIL_eq_nil_of_neg _ _ _ hstop]
          exact ⟨rfl, rfl⟩
        · cases hs : e.sub_slo with
          | false =>
            rw [iterSegs_succ, iterLevel_leaf _ _ _ _ _ _ _ _ hskip hstop hs,
              ← iterSegs_succ]
            obtain ⟨ih1, ih2⟩ :=
              ih (f - segLength e) (l - segLength e) cache hwfrest hlmrest
                hcache
            refine ⟨ih1, ?_⟩
            rw [yieldedBytes_cons, ih2, concatSegs_cons,
              sliceIL_append _ _ _ _ _ hclen]
            congr 1
            exact leafYieldSlice store o (n + 1) e hs hro (hleaf hs) f l
          | true =>
            obtain ⟨_, ch, hch, hbytes, hwfch⟩ := hsub hs
            have hlmch := hlsub ch hs hch
            have hcclen : ((concatSegs store o n ch).length : Int) = e.bytes :=
              by rw [concatSegs_length store o n ch hwfch hlmch, hbytes]
            obtain ⟨ihs1, ihs2⟩ :=
              ihf ch (rsOf e + max 0 f) (min (reOf e) (rsOf e + l)) none
                hwfch hlmch trivial
            obtain ⟨ihr1, ihr2⟩ :=
              ih (f - segLength e) (l - segLength e) (some (e.name, ch))
                hwfrest hlmrest hch
            rcases hx : iterSegs store n ch (rsOf e + max 0 f)
                (min (reOf e) (rsOf e + l)) none with ⟨sevs, serr⟩
            rw [hx] at ihs1 ihs2
            have hserr : serr = none := ihs1
            subst hserr
            rcases hy : iterSegs store (n + 1) rest (f - segLength e)
                (l - segLength e) (some (e.name, ch)) with ⟨revs, rerr⟩
            rw [hy] at ihr1 ihr2
            have hrerr : rerr = none := ihr1
            subst hrerr
            have hyy : iterLevel store (iterSegs store n) false rest
                (f - segLength e) (l - segLength e) (some (e.name, ch))
                = ⟨revs, none⟩ := hy
            cases hcl : cacheLookup cache e.name with
            | some ch0 =>
              have hch0 : ch0 = ch := by
                have hthis := cacheLookup_ok store cache hcache e.name ch0 hcl
                rw [hch] at hthis
                exact (Option.some_inj.mp hthis).symm
              rw [hch0] at hcl
              rw [iterSegs_succ,
                iterLevel_sub_cached store _ e rest f l cache ch hskip hstop
                  hs hcl, hx, hyy]
              refine ⟨rfl, ?_⟩
              show yieldedBytes o (sevs ++ revs)
                = sliceIL (concatSegs store o (n + 1) (e :: rest)) f l
              rw [yieldedBytes_append, ihs2, ihr2, concatSegs_cons,
                sliceIL_append _ _ _ _ _ hclen]
              congr 1
              exact subWindowSlice store o n e hs hro ch hch hcclen f l
            | none =>
              rw [iterSegs_succ,
                iterLevel_sub_fetch store _ e rest f l cache ch hskip hstop
                  hs hcl hch, hx, hyy]
              refine ⟨rfl, ?_⟩
              show yieldedBytes o (Event.fetch e.name :: (sevs ++ revs))
                = sliceIL (concatSegs store o (n + 1) (e :: rest)) f l
              rw [yieldedBytes_cons, yieldedBytes_append, ihs2, ihr2,
                concatSegs_cons, sliceIL_append _ _ _ _ _ hclen]
              simp only [eventBytes, List.nil_append]
              congr 1
              exact subWindowSlice store o n e hs hro ch hch hcclen f l

/-! ## Claim C1 -/

/-- C1: For every stored manifest `M` (recursively expanded through
`sub_slo` entries, well-formed for the middleware's recursion budget) and
every window `[f, l]` with `0 ≤ f ≤ l < total(M)`, the segment listing
iterator completes without error and the concatenation of
`entry.object[start..end]` over its yielded tuples equals
`concat(M)[f..l]`; and when the caller passes an unset window, the
iterator behaves exactly as with the window `[0, total(M) - 1]`. -/
theorem C1_segment_listing_window (store : Store) (o : ObjStore)
    (segs : List StoredSeg) (f l : Int)
    (hwf : wfStruct store (maxSloRecursionDepth - 1) segs = true)
    (hlm : leavesMatch store o (maxSloRecursionDepth - 1) segs = true)
    (h0 : 0 ≤ f) (hfl : f ≤ l) (hlt : l < totalLength segs) :
    (segmentListingIterator store segs (some f) (some l)).err = none ∧
    yieldedBytes o (segmentListingIterator store segs (some f) (some l)).events
      = sliceIL (concatSegs store o (maxSloRecursionDepth - 1) segs) f l ∧
    segmentListingIterator store segs none none
      = segmentListingIterator store segs (some 0)
          (some (totalLength segs - 1)) := by
  obtain ⟨h1, h2⟩ :=
    iterSegs_concat store o (maxSloRecursionDepth - 1) segs f l none hwf hlm
      trivial
  exact ⟨h1, h2, rfl⟩

def c1A : StoredSeg := ⟨"/c/a", "ha", 3, none, false⟩
def c1B : StoredSeg := ⟨"/c/b", "hb", 2, none, false⟩
def c1S : StoredSeg := ⟨"/c/s", "hs", 2, some (1, 1), true⟩
def c1store : Store := [("/c/s", [c1B])]
def c1objs : ObjStore := [("/c/a", [10, 11, 12]), ("/c/b", [20, 21])]
def c1segs : List StoredSeg := [c1A, c1S]

/-- Witness for C1 at a concrete two-level manifest with a ranged
sub-SLO entry: total length 4, window `[1, 3]`. -/
theorem C1_segment_listing_window_witness :
    (segmentListingIterator c1store c1segs (some 1) (some 3)).err = none ∧
    yieldedBytes c1objs
        (segmentListingIterator c1store c1segs (some 1) (some 3)).events
      = sliceIL (concatSegs c1store c1objs (maxSloRecursionDepth - 1) c1segs)
          1 3 ∧
    segmentListingIterator c1store c1segs none none
      = segmentListingIterator c1store c1segs (some 0)
          (some (totalLength c1segs - 1)) :=
  C1_segment_listing_window c1store c1objs c1segs 1 3 (by decide) (by decide)
    (by decide) (by decide) (by decide)

/-! ## Claim C5 -/

/-- `true` iff the event trace contains no sub-manifest fetch. -/
def noFetch (evs : List Event) : Bool :=
  evs.all (fun ev =>
    match ev with
    | Event.fetch _ => false
    | Event.yieldSeg _ _ _ => true)

/-- At an exhausted recursion budget (`recursion_depth` has reached
`max_slo_recursion_depth`), an iterator level never emits a fetch, and
the only error it can raise is the depth error. -/
theorem iterSegs_zero_noFetch (store : Store) :
    ∀ segs f l cache,
      noFetch (iterSegs store 0 segs f l cache).events = true ∧
      ((iterSegs store 0 segs f l cache).err = none ∨
        (iterSegs store 0 segs f l cache).err
          = some ErrKind.depthExceeded) := by
  intro segs
  induction segs with
  | nil =>
    intro f l cache
    rw [iterSegs_zero, iterLevel_nil]
    exact ⟨rfl, Or.inl rfl⟩
  | cons e rest ih =>
    intro f l cache
    by_cases hskip : segLength e ≤ f
    · rw [iterSegs_zero, iterLevel_skip _ _ _ _ _ _ _ _ hskip, ← iterSegs_zero]
      exact ih _ _ _
    · by_cases hstop : l < 0
      · rw [iterSegs_zero, iterLevel_stop _ _ _ _ _ _ _ _ hskip hstop]
        exact ⟨rfl, Or.inl rfl⟩
      · cases hs : e.sub_slo with
        | true =>
          rw [iterSegs_zero, iterLevel_sub_limit _ _ _ _ _ _ _ hskip hstop hs]
          exact ⟨rfl, Or.inr rfl⟩
        | false =>
          rw [iterSegs_zero, iterLevel_leaf _ _ _ _ _ _ _ _ hskip hstop hs,
            ← iterSegs_zero]
          obtain ⟨ih1, ih2⟩ := ih (f - segLength e) (l - segLength e) cache
          exact ⟨by simpa [noFetch] using ih1, ih2⟩

def c5cyc : StoredSeg := ⟨"/c/a", "h", 1, none, true⟩
def c5store : Store := [("/c/a", [c5cyc])]

/-- C5: whenever the iterator would have to fetch a sub-manifest past
the recursion bound of `max_slo_recursion_depth = 10`, it raises a
listing error instead, before fetching: with the budget exhausted, a
level emits no fetch event at all and can only fail with the depth
error.  Moreover, a manifest tree of depth greater than 10 whose deep
entries intersect the window (here: a self-referencing manifest, of
unbounded depth, read in full) produces the depth error after exactly
the 9 permitted sub-manifest fetches, without unbounded fetching. -/
theorem C5_recursion_depth_bound :
    (∀ store segs f l cache,
      noFetch (iterSegs store 0 segs f l cache).events = true ∧
      ((iterSegs store 0 segs f l cache).err = none ∨
        (iterSegs store 0 segs f l cache).err
          = some ErrKind.depthExceeded)) ∧
    segmentListingIterator c5store [c5cyc] none none
      = ⟨List.replicate (maxSloRecursionDepth - 1) (Event.fetch "/c/a"),
         some ErrKind.depthExceeded⟩ :=
  ⟨fun store => iterSegs_zero_noFetch store, by decide⟩

/-! ## Claim C6 -/

/-- The sub-manifest names whose logical span intersects the window.
Writing `P i` for the sum of effective lengths of the entries before
entry `i` at one level, entry `i` is listed iff it is a `sub_slo` entry
with `f - P i < segLength e` and `0 ≤ l - P i`, i.e. (for entries of
positive effective length and windows with `f ≤ l`) iff its span
`[P i, P i + segLength e)` intersects `[f, l]`; the window is threaded
through the list by decrementing both bounds by each entry's effective
length, and through a `sub_slo` entry by the range-slicing
`f' = rs + max 0 f`, `l' = min re (rs + l)`. -/
def intersectLevel (store : Store)
    (subNames : List StoredSeg → Int → Int → List String) (atLimit : Bool) :
    List StoredSeg → Int → Int → List String
  | [], _, _ => []
  | e :: rest, f, l =>
    (if e.sub_slo && decide (f < segLength e) && decide (0 ≤ l) then
       e.name ::
         (if atLimit then []
          else
            match lookupStore store e.name with
            | some ch =>
              subNames ch (rsOf e + max 0 f) (min (reOf e) (rsOf e + l))
            | none => [])
     else []) ++
      intersectLevel store subNames atLimit rest (f - segLength e)
        (l - segLength e)

def windowSubNames (store : Store) (fuel : Nat) :
    List StoredSeg → Int → Int → List String :=
  match fuel with
  | 0 => intersectLevel store (fun _ _ _ => []) true
  | fuel' + 1 => intersectLevel store (windowSubNames store fuel') false

theorem windowSubNames_cons (store : Store) (fuel : Nat) (e : StoredSeg)
    (rest : List StoredSeg) (f l : Int) :
    windowSubNames store fuel (e :: rest) f l
      = (if e.sub_slo && decide (f < segLength e) && decide (0 ≤ l) then
           e.name ::
             (match fuel, lookupStore store e.name with
              | fuel' + 1, some ch =>
                windowSubNames store fuel' ch (rsOf e + max 0 f)
                  (min (reOf e) (rsOf e + l))
              | _, _ => [])
         else []) ++
          windowSubNames store fuel rest (f - segLength e)
            (l - segLength e) := by
  cases fuel with
  | zero =>
    cases hch : lookupStore store e.name <;>
      simp [windowSubNames, intersectLevel, hch]
  | succ n =>
    cases hch : lookupStore store e.name <;>
      simp [windowSubNames, intersectLevel, hch]

/-- Every sub-manifest fetch the iterator performs is of a name whose
span intersects the window: the iterator never fetches a sub-manifest
whose logical span lies entirely outside `[f, l]`. -/
theorem iter_fetch_mem (store : Store) :
    ∀ fuel segs f l cache, cacheOK store cache →
      ∀ p, Event.fetch p ∈ (iterSegs store fuel segs f l cache).events →
        p ∈ windowSubNames store fuel segs f l := by
  intro fuel
  induction fuel with
  | zero =>
    intro segs
    induction segs with
    | nil =>
      intro f l cache _ p hp
      rw [iterSegs_zero, iterLevel_nil] at hp
      simp at hp
    | cons e rest ih =>
      intro f l cache hcache p hp
      rw [windowSubNames_cons]
      by_cases hskip : segLength e ≤ f
      · rw [iterSegs_zero, iterLevel_skip _ _ _ _ _ _ _ _ hskip,
          ← iterSegs_zero] at hp
        exact List.mem_append_right _
          (ih (f - segLength e) (l - segLength e) cache hcache p hp)
      · by_cases hstop : l < 0
        · rw [iterSegs_zero, iterLevel_stop _ _ _ _ _ _ _ _ hskip hstop] at hp
          simp at hp
        · cases hs : e.sub_slo with
          | true =>
            rw [iterSegs_zero,
              iterLevel_sub_limit _ _ _ _ _ _ _ hskip hstop hs] at hp
            simp at hp
          | false =>
            rw [iterSegs_zero, iterLevel_leaf _ _ _ _ _ _ _ _ hskip hstop hs,
              ← iterSegs_zero] at hp
            simp only [List.mem_cons] at hp
            rcases hp with hp | hp
            · exact absurd hp (by simp)
            · exact List.mem_append_right _
                (ih (f - segLength e) (l - segLength e) cache hcache p hp)
  | succ n ihf =>
    intro segs
    induction segs with
    | nil =>
      intro f l cache _ p hp
      rw [iterSegs_succ, iterLevel_nil] at hp
      simp at hp
    | cons e rest ih =>
      intro f l cache hcache p hp
      rw [windowSubNames_cons]
      by_cases hskip : segLength e ≤ f
      · rw [iterSegs_succ, iterLevel_skip _ _ _ _ _ _ _ _ hskip,
          ← iterSegs_succ] at hp
        exact List.mem_append_right _
          (ih (f - segLength e) (l - segLength e) cache hcache p hp)
      · by_cases hstop : l < 0
        · rw [iterSegs_succ, iterLevel_stop _ _ _ _ _ _ _ _ hskip hstop] at hp
          simp at hp
        · cases hs : e.sub_slo with
          | false =>
            rw [iterSegs_succ, iterLevel_leaf _ _ _ _ _ _ _ _ hskip hstop hs,
              ← iterSegs_succ] at hp
            simp only [List.mem_cons] at hp
            rcases hp with hp | hp
            · exact absurd hp (by simp)
            · exact List.mem_append_right _
                (ih (f - segLength e) (l - segLength e) cache hcache p hp)
          | true =>
            have hflt : f < segLength e := by omega
            have hl0 : (0 : Int) ≤ l := by omega
            rw [if_pos (by simp [hflt, hl0])]
            cases hcl : cacheLookup cache e.name with
            | some ch0 =>
              have hch : lookupStore store e.name = some ch0 :=
                cacheLookup_ok store cache hcache e.name ch0 hcl
              rw [iterSegs_succ,
                iterLevel_sub_cached store _ e rest f l cache ch0 hskip hstop
                  hs hcl] at hp
              rcases hx : iterSegs store n ch0 (rsOf e + max 0 f)
                  (min (reOf e) (rsOf e + l)) none with ⟨sevs, serr⟩
              rw [hx] at hp
              cases serr with
              | some err =>
                have hp' : Event.fetch p ∈ sevs := hp
                have hm := ihf ch0 (rsOf e + max 0 f)
                  (min (reOf e) (rsOf e + l)) none trivial p (by rw [hx]; exact hp')
                simp only [hch]
                exact List.mem_append_left _ (List.mem_cons_of_mem _ hm)
              | none =>
                have hp' : Event.fetch p ∈ sevs ++
                    (iterLevel store (iterSegs store n) false rest
                      (f - segLength e) (l - segLength e)
                      (some (e.name, ch0))).events := hp
                rcases List.mem_append.mp hp' with hmem | hmem
                · have hm := ihf ch0 (rsOf e + max 0 f)
                    (min (reOf e) (rsOf e + l)) none trivial p
                    (by rw [hx]; exact hmem)
                  simp only [hch]
                  exact List.mem_append_left _ (List.mem_cons_of_mem _ hm)
                · have hm := ih (f - segLength e) (l - segLength e)
                    (some (e.name, ch0)) hch p hmem
                  exact List.mem_append_right _ hm
            | none =>
              cases hch : lookupStore store e.name with
              | none =>
                rw [iterSegs_succ,
                  iterLevel_sub_fetch_fail store _ e rest f l cache hskip
                    hstop hs hcl hch] at hp
                simp only [List.mem_singleton] at hp
                have hpe : p = e.name := by
                  cases hp
                  rfl
                subst hpe
                simp [hch]
              | some ch =>
                rw [iterSegs_succ,
                  iterLevel_sub_fetch store _ e rest f l cache ch hskip hstop
                    hs hcl hch] at hp
                rcases hx : iterSegs store n ch (rsOf e + max 0 f)
                    (min (reOf e) (rsOf e + l)) none with ⟨sevs, serr⟩
                rw [hx] at hp
                cases serr with
                | some err =>
                  have hp' : Event.fetch p ∈ Event.fetch e.name :: sevs := hp
                  simp only [List.mem_cons] at hp'
                  rcases hp' with hp' | hp'
                  · have hpe : p = e.name := by
                      cases hp'
                      rfl
                    subst hpe
                    simp [hch]
                  · have hm := ihf ch (rsOf e + max 0 f)
                      (min (reOf e) (rsOf e + l)) none trivial p
                      (by rw [hx]; exact hp')
                    simp only [hch]
                    exact List.mem_append_left _ (List.mem_cons_of_mem _ hm)
                | none =>
                  have hp' : Event.fetch p ∈ Event.fetch e.name ::
                      (sevs ++ (iterLevel store (iterSegs store n) false rest
                        (f - segLength e) (l - segLength e)
                        (some (e.name, ch))).events) := hp
                  simp only [List.mem_cons] at hp'
                  rcases hp' with hp' | hp'
                  · have hpe : p = e.name := by
                      cases hp'
                      rfl
                    subst hpe
                    simp [hch]
                  · rcases List.mem_append.mp hp' with hmem | hmem
                    · have hm := ihf ch (rsOf e + max 0 f)
                        (min (reOf e) (rsOf e + l)) none trivial p
                        (by rw [hx]; exact hmem)
                      simp only [hch]
                      exact List.mem_append_left _ (List.mem_cons_of_mem _ hm)
                    · have hm := ih (f - segLength e) (l - segLength e)
                        (some (e.name, ch)) hch p hmem
                      exact List.mem_append_right _ hm

def c6S : StoredSeg := ⟨"/c/S", "hs", 52428800, none, true⟩
def c6T : StoredSeg := ⟨"/c/T", "ht", 10485760, none, false⟩

/-- C6: the iterator never fetches a sub-manifest whose logical span
lies entirely outside the window `[f, l]`.  (1) An entry whose effective
length lies wholly before `f` is skipped by decrementing both window
bounds, contributing no event (in particular no fetch); (2) once
`last_byte` has gone negative, iteration stops before the entry, with no
further events; (3) every fetched path is listed in `windowSubNames`,
the names of sub-manifest entries whose span intersects the window;
(4) scenario S3: a parent with a 50 MiB sub-SLO `S` followed by a
10 MiB leaf `T`, read at window `[52428800, 52429311]`, skips `S`
entirely without fetching it — the store is empty, so any fetch would
have errored — and yields exactly `(T, 0, 511)`. -/
theorem C6_no_out_of_window_fetch :
    (∀ (store : Store) sub atLimit (e : StoredSeg) rest (f l : Int) cache,
      segLength e ≤ f →
      iterLevel store sub atLimit (e :: rest) f l cache
        = iterLevel store sub atLimit rest (f - segLength e)
            (l - segLength e) cache) ∧
    (∀ (store : Store) sub atLimit (e : StoredSeg) rest (f l : Int) cache,
      ¬ segLength e ≤ f → l < 0 →
      iterLevel store sub atLimit (e :: rest) f l cache = ⟨[], none⟩) ∧
    (∀ (store : Store) fuel segs (f l : Int) cache, cacheOK store cache →
      ∀ p, Event.fetch p ∈ (iterSegs store fuel segs f l cache).events →
        p ∈ windowSubNames store fuel segs f l) ∧
    segmentListingIterator [] [c6S, c6T] (some 52428800) (some 52429311)
      = ⟨[Event.yieldSeg c6T 0 511], none⟩ :=
  ⟨fun store sub atLimit e rest f l cache h =>
      iterLevel_skip store sub atLimit e rest f l cache h,
   fun store sub atLimit e rest f l cache h1 h2 =>
      iterLevel_stop store sub atLimit e rest f l cache h1 h2,
   fun store => iter_fetch_mem store,
   by decide⟩

/-- Witness for C6: on the concrete nested manifest `c1segs`, the fetch
of the sub-manifest `/c/s` performed for the window `[0, 3]` is indeed
of a window-intersecting sub-manifest. -/
theorem C6_no_out_of_window_fetch_witness :
    "/c/s" ∈ windowSubNames c1store (maxSloRecursionDepth - 1) c1segs 0 3 :=
  C6_no_out_of_window_fetch.2.2.1 c1store (maxSloRecursionDepth - 1) c1segs
    0 3 none trivial "/c/s" (by decide)

/-! ## Claim C7 -/

/-- Bounds of yielded tuples: over a well-formed stored manifest all of
whose entries have positive effective length, every yielded tuple
`(entry, start, end)` satisfies `0 ≤ start ≤ end < entry.bytes`
(so in particular each yielded leaf contributes at least one byte). -/
theorem iter_yield_bounds (store : Store) :
    ∀ fuel segs f l cache,
      wfStruct store fuel segs = true →
      allPos store fuel segs = true →
      cacheOK store cache →
      (0 ≤ l → f ≤ l) →
      ∀ e s t,
        Event.yieldSeg e s t ∈ (iterSegs store fuel segs f l cache).events →
        0 ≤ s ∧ s ≤ t ∧ t < e.bytes := by
  intro fuel
  induction fuel with
  | zero =>
    intro segs
    induction segs with
    | nil =>
      intro f l cache _ _ _ _ e s t hp
      rw [iterSegs_zero, iterLevel_nil] at hp
      simp at hp
    | cons e0 rest ih =>
      intro f l cache hwf hpos hcache hinv e s t hp
      obtain ⟨hro, hwfrest, hsub⟩ := wfLevel_cons _ _ _ _ _ hwf
      obtain ⟨hL1, hposrest, _⟩ := posLevel_cons _ _ _ _ hpos
      by_cases hskip : segLength e0 ≤ f
      · rw [iterSegs_zero, iterLevel_skip _ _ _ _ _ _ _ _ hskip,
          ← iterSegs_zero] at hp
        refine ih (f - segLength e0) (l - segLength e0) cache hwfrest hposrest
          hcache ?_ e s t hp
        intro h'
        have hfl' := hinv (by omega)
        omega
      · by_cases hstop : l < 0
        · rw [iterSegs_zero, iterLevel_stop _ _ _ _ _ _ _ _ hskip hstop] at hp
          simp at hp
        · cases hs : e0.sub_slo with
          | true => exact absurd (hsub hs).1 (by simp)
          | false =>
            rw [iterSegs_zero, iterLevel_leaf _ _ _ _ _ _ _ _ hskip hstop hs,
              ← iterSegs_zero] at hp
            simp only [List.mem_cons] at hp
            rcases hp with hp | hp
            · injection hp with he hes het
              subst he
              subst hes
              subst het
              have hfl' : f ≤ l := hinv (by omega)
              cases hr : e.range with
              | none =>
                simp only [rsOf, reOf, segLength, hr] at hskip hL1 ⊢
                omega
              | some ab =>
                obtain ⟨a, b⟩ := ab
                obtain ⟨ha, hab, hb⟩ := rangeOk_some e a b hro hr
                simp only [rsOf, reOf, segLength, hr] at hskip hL1 ⊢
                omega
            · refine ih (f - segLength e0) (l - segLength e0) cache hwfrest
                hposrest hcache ?_ e s t hp
              intro h'
              have hfl' := hinv (by omega)
              omega
  | succ n ihf =>
    intro segs
    induction segs with
    | nil =>
      intro f l cache _ _ _ _ e s t hp
      rw [iterSegs_succ, iterLevel_nil] at hp
      simp at hp
    | cons e0 rest ih =>
      intro f l cache hwf hpos hcache hinv e s t hp
      obtain ⟨hro, hwfrest, hsub⟩ := wfLevel_cons _ _ _ _ _ hwf
      obtain ⟨hL1, hposrest, hpossub⟩ := posLevel_cons _ _ _ _ hpos
      by_cases hskip : segLength e0 ≤ f
      · rw [iterSegs_succ, iterLevel_skip _ _ _ _ _ _ _ _ hskip,
          ← iterSegs_succ] at hp
        refine ih (f - segLength e0) (l - segLength e0) cache hwfrest hposrest
          hcache ?_ e s t hp
        intro h'
        have hfl' := hinv (by omega)
        omega
      · by_cases hstop : l < 0
        · rw [iterSegs_succ, iterLevel_stop _ _ _ _ _ _ _ _ hskip hstop] at hp
          simp at hp
        · have hfl' : f ≤ l := hinv (by omega)
          have hrestinv : (0 : Int) ≤ l - segLength e0 →
              f - segLength e0 ≤ l - segLength e0 := by
            intro h'
            omega
          cases hs : e0.sub_slo with
          | false =>
            rw [iterSegs_succ, iterLevel_leaf _ _ _ _ _ _ _ _ hskip hstop hs,
              ← iterSegs_succ] at hp
            simp only [List.mem_cons] at hp
            rcases hp with hp | hp
            · injection hp with he hes het
              subst he
              subst hes
              subst het
              cases hr : e.range with
              | none =>
                simp only [rsOf, reOf, segLength, hr] at hskip hL1 ⊢
                omega
              | some ab =>
                obtain ⟨a, b⟩ := ab
                obtain ⟨ha, hab, hb⟩ := rangeOk_some e a b hro hr
                simp only [rsOf, reOf, segLength, hr] at hskip hL1 ⊢
                omega
            · exact ih (f - segLength e0) (l - segLength e0) cache hwfrest
                hposrest hcache hrestinv e s t hp
          | true =>
            obtain ⟨_, ch, hch, hbytes, hwfch⟩ := hsub hs
            have hposch := hpossub ch hs hch
            have hinner : rsOf e0 + max 0 f
                ≤ min (reOf e0) (rsOf e0 + l) := by
              cases hr : e0.range with
              | none =>
                simp only [rsOf, reOf, segLength, hr] at hskip hL1 ⊢
                omega
              | some ab =>
                obtain ⟨a, b⟩ := ab
                obtain ⟨ha, hab, hb⟩ := rangeOk_some e0 a b hro hr
                simp only [rsOf, reOf, segLength, hr] at hskip hL1 ⊢
                omega
            cases hcl : cacheLookup cache e0.name with
            | some ch0 =>
              have hch0 : ch0 = ch := by
                have hthis := cacheLookup_ok store cache hcache e0.name ch0 hcl
                rw [hch] at hthis
                exact (Option.some_inj.mp hthis).symm
              subst hch0
              rw [iterSegs_succ,
                iterLevel_sub_cached store _ e0 rest f l cache ch0 hskip hstop
                  hs hcl] at hp
              rcases hx : iterSegs store n ch0 (rsOf e0 + max 0 f)
                  (min (reOf e0) (rsOf e0 + l)) none with ⟨sevs, serr⟩
              rw [hx] at hp
              cases serr with
              | some err =>
                have hp' : Event.yieldSeg e s t ∈ sevs := hp
                exact ihf ch0 (rsOf e0 + max 0 f) (min (reOf e0) (rsOf e0 + l))
                  none hwfch hposch trivial (fun _ => hinner) e s t
                  (by rw [hx]; exact hp')
              | none =>
                have hp' : Event.yieldSeg e s t ∈ sevs ++
                    (iterLevel store (iterSegs store n) false rest
                      (f - segLength e0) (l - segLength e0)
                      (some (e0.name, ch0))).events := hp
                rcases List.mem_append.mp hp' with hmem | hmem
                · exact ihf ch0 (rsOf e0 + max 0 f)
                    (min (reOf e0) (rsOf e0 + l)) none hwfch hposch trivial
                    (fun _ => hinner) e s t (by rw [hx]; exact hmem)
                · exact ih (f - segLength e0) (l - segLength e0)
                    (some (e0.name, ch0)) hwfrest hposrest hch hrestinv e s t
                    hmem
            | none =>
              rw [iterSegs_succ,
                iterLevel_sub_fetch store _ e0 rest f l cache ch hskip hstop
                  hs hcl hch] at hp
              rcases hx : iterSegs store n ch (rsOf e0 + max 0 f)
                  (min (reOf e0) (rsOf e0 + l)) none with ⟨sevs, serr⟩
              rw [hx] at hp
              cases serr with
              | some err =>
                have hp' : Event.yieldSeg e s t
                    ∈ Event.fetch e0.name :: sevs := hp
                simp only [List.mem_cons] at hp'
                rcases hp' with hp' | hp'
                · exact absurd hp' (by simp)
                · exact ihf ch (rsOf e0 + max 0 f)
                    (min (reOf e0) (rsOf e0 + l)) none hwfch hposch trivial
                    (fun _ => hinner) e s t (by rw [hx]; exact hp')
              | none =>
                have hp' : Event.yieldSeg e s t ∈ Event.fetch e0.name ::
                    (sevs ++ (iterLevel store (iterSegs store n) false rest
                      (f - segLength e0) (l - segLength e0)
                      (some (e0.name, ch))).events) := hp
                simp only [List.mem_cons] at hp'
                rcases hp' with hp' | hp'
                · exact absurd hp' (by simp)
                · rcases List.mem_append.mp hp' with hmem | hmem
                  · exact ihf ch (rsOf e0 + max 0 f)
                      (min (reOf e0) (rsOf e0 + l)) none hwfch hposch trivial
                      (fun _ => hinner) e s t (by rw [hx]; exact hmem)
                  · exact ih (f - segLength e0) (l - segLength e0)
                      (some (e0.name, ch)) hwfrest hposrest hch hrestinv
                      e s t hmem

/-- Bounds check of a single yielded tuple, as claimed by C7. -/
def yieldOk (ev : Event) : Bool :=
  match ev with
  | Event.fetch _ => true
  | Event.yieldSeg e s t =>
    decide (0 ≤ s) && decide (s ≤ t) && decide (t < e.bytes)

def c7a : StoredSeg := ⟨"/c/c7a", "h1", 10, none, false⟩
def c7z : StoredSeg := ⟨"/c/c7z", "h2", 0, none, false⟩
def c7b : StoredSeg := ⟨"/c/c7b", "h3", 5, none, false⟩

/-- C7 as stated is false: in the stored manifest
`[c7a (10 bytes), c7z (0 bytes), c7b (5 bytes)]` — every stored range
vacuously satisfies `A ≤ B < bytes`, and `[5, 14]` is a well-formed
window — the zero-length leaf `c7z` is yielded as `(c7z, 0, -1)`, with
`start > end`, a tuple contributing no byte at all.  (A zero-byte entry
can only sit last in a manifest validated under the default
`min_segment_size`, but the bound is configurable, and `0 < 0` is false,
so `min_segment_size = 0` admits this manifest.) -/
theorem C7_counterexample :
    rangeOk c7a = true ∧ rangeOk c7z = true ∧ rangeOk c7b = true ∧
    (0 ≤ (5 : Int) ∧ (5 : Int) ≤ 14 ∧
      (14 : Int) < totalLength [c7a, c7z, c7b]) ∧
    (segmentListingIterator [] [c7a, c7z, c7b] (some 5) (some 14)).events
      = [Event.yieldSeg c7a 5 9, Event.yieldSeg c7z 0 (-1),
         Event.yieldSeg c7b 0 4] ∧
    ((segmentListingIterator [] [c7a, c7z, c7b] (some 5)
        (some 14)).events.all yieldOk) = false := by
  decide

/-- C7 (amended): every tuple `(entry, start, end)` yielded by the
segment listing iterator for a well-formed window satisfies
`0 ≤ start ≤ end < entry.bytes` — so every yielded leaf contributes at
least one byte — given that any stored range satisfies `A ≤ B < bytes`
and, additionally, that every entry of the manifest tree has effective
length at least 1 (`allPos`; the counterexample shows the claim fails
for zero-length entries). -/
theorem C7_yield_bounds_amended (store : Store) (segs : List StoredSeg)
    (f l : Int)
    (hwf : wfStruct store (maxSloRecursionDepth - 1) segs = true)
    (hpos : allPos store (maxSloRecursionDepth - 1) segs = true)
    (h0 : 0 ≤ f) (hfl : f ≤ l) (hlt : l < totalLength segs) :
    ∀ e s t,
      Event.yieldSeg e s t
        ∈ (segmentListingIterator store segs (some f) (some l)).events →
      0 ≤ s ∧ s ≤ t ∧ t < e.bytes :=
  fun e s t hp =>
    iter_yield_bounds store (maxSloRecursionDepth - 1) segs f l none hwf hpos
      trivial (fun _ => hfl) e s t hp

/-- Witness for the amended C7 at the concrete nested manifest
`c1segs`, window `[1, 3]`, on its first yielded tuple `(c1A, 1, 2)`. -/
theorem C7_yield_bounds_amended_witness :
    0 ≤ (1 : Int) ∧ (1 : Int) ≤ 2 ∧ (2 : Int) < c1A.bytes :=
  C7_yield_bounds_amended c1store c1segs 1 3 (by decide) (by decide)
    (by decide) (by decide) (by decide) c1A 1 2 (by decide)

/-! ## GET/HEAD manifest response (`SloGetContext.get_or_head_response`)

The middleware JSON-decodes the manifest body it obtained (treating a
decode failure as an empty segment list), then recomputes the composite
ETag and the logical content length from the stored entries.  As
explained in the header, the composite ETag is represented by the exact
string fed to the running MD5 (`etagInput`); the surfaced ETag header is
the hex MD5 digest of that string, quoted.
-/

/-- The stored range as the middleware serializes it (`'%d-%d'`). -/
def rangeStr (r : Int × Int) : String :=
  toString r.1 ++ "-" ++ toString r.2

/-- The token a stored entry feeds to the composite-ETag hash at
GET/HEAD time: `hash` for a whole entry, `hash ++ ":" ++ range ++ ";"`
for a ranged one. -/
def etagTokenStored (e : StoredSeg) : String :=
  match e.range with
  | some r => e.hash ++ ":" ++ rangeStr r ++ ";"
  | none => e.hash

/-- The string fed to the running MD5 over the stored entries, in
order (the `etag.update` loop of `get_or_head_response`). -/
def getEtagInput (segs : List StoredSeg) : String :=
  segs.foldl (fun acc e => acc ++ etagTokenStored e) ""

/-- Result of `get_or_head_response`: the recomputed Content-Length, the
composite-ETag input string, and the segment list used to build the GET
response body. -/
structure SloGetHeadResult where
  contentLength : Int
  etagInput : String
  segments : List StoredSeg
deriving DecidableEq

/-- `SloGetContext.get_or_head_response`: `manifestJson` is the result
of JSON-decoding the manifest body (`none` models a `ValueError`, which
the code turns into an empty segment list rather than an error).  The
function always produces a (success) response description: Content-Length
is the sum of effective lengths and the ETag is recomputed from the
entries' `hash`/`range` fields. -/
def getOrHeadResponse (manifestJson : Option (List StoredSeg)) :
    SloGetHeadResult :=
  ⟨totalLength (manifestJson.getD []), getEtagInput (manifestJson.getD []),
   manifestJson.getD []⟩

/-! ## PUT-side model

Strings are manipulated through their character lists so that every
definition evaluates inside the kernel.
-/

def dropLeadCh (c : Char) : List Char → List Char
  | [] => []
  | x :: xs => if x = c then dropLeadCh c xs else x :: xs

/-- Python `s.lstrip('/')`. -/
def stripLeadSlashes (s : String) : String :=
  String.mk (dropLeadCh '/' s.data)

/-- Python `s.strip('/')`. -/
def stripSlashes (s : String) : String :=
  String.mk ((dropLeadCh '/' ((dropLeadCh '/' s.data).reverse)).reverse)

def containsSlash (s : String) : Bool :=
  s.data.any (fun c => c = '/')

def digitVal (c : Char) : Option Nat :=
  if 48 ≤ c.toNat ∧ c.toNat ≤ 57 then some (c.toNat - 48) else none

def parseNatChAux : List Char → Nat → Option Nat
  | [], acc => some acc
  | c :: cs, acc =>
    match digitVal c with
    | some d => parseNatChAux cs (acc * 10 + d)
    | none => none

def parseNatCh (cs : List Char) : Option Nat :=
  match cs with
  | [] => none
  | _ => parseNatChAux cs 0

/-- Python `int(s)` on a string: optional sign then decimal digits. -/
def parseIntStr (s : String) : Option Int :=
  match s.data with
  | '-' :: rest => (parseNatCh rest).map (fun k => -(k : Int))
  | '+' :: rest => (parseNatCh rest).map (fun k => (k : Int))
  | cs => (parseNatCh cs).map (fun k => (k : Int))

def splitOnCh (sep : Char) : List Char → List (List Char)
  | [] => [[]]
  | x :: xs =>
    if x = sep then [] :: splitOnCh sep xs
    else
      match splitOnCh sep xs with
      | [] => [[x]]
      | g :: gs => (x :: g) :: gs

/-- JSON values, as `json.loads` would produce them (numbers restricted
to integers, which is all the middleware's schema admits). -/
inductive JVal where
  | jnull
  | jbool (b : Bool)
  | jnum (n : Int)
  | jstr (s : String)
  | jarr (xs : List JVal)
  | jobj (fields : List (String × JVal))

def jget (fields : List (String × JVal)) (k : String) : Option JVal :=
  match fields.find? (fun p => p.1 == k) with
  | some p => some p.2
  | none => none

/-- Python truthiness of `seg_dict.get(key)`. -/
def jtruthy : Option JVal → Bool
  | none => false
  | some JVal.jnull => false
  | some (JVal.jbool b) => b
  | some (JVal.jnum n) => !(n == 0)
  | some (JVal.jstr s) => !(s == "")
  | some (JVal.jarr xs) => !xs.isEmpty
  | some (JVal.jobj fs) => !fs.isEmpty

/-- Python `'%s' % v` for the values that can reach the range parser. -/
def jstrOf : JVal → String
  | JVal.jstr s => s
  | JVal.jnum n => toString n
  | JVal.jbool b => if b then "True" else "False"
  | JVal.jnull => "None"
  | JVal.jarr _ => "[...]"
  | JVal.jobj _ => "{...}"

/-- A single client byte range `M-N` / `M-` / `-N`. -/
inductive ClientRange where
  | fromTo (a b : Int)
  | fromStart (a : Int)
  | lastBytes (n : Int)
deriving DecidableEq

/-- Modelled from the spec: `swob.Range` parsing of a single
`begin-end` token (the swob module is outside this repository; the
spec describes ranges as strings of the form `M-N`, `M-`, or `-N`
with `M`, `N` non-negative integers, and a `M-N` range with `N < M`
is syntactically invalid). -/
def parseRangePart (cs : List Char) : Option ClientRange :=
  match splitOnCh '-' cs with
  | [a, b] =>
    match a, b with
    | [], [] => none
    | [], _ => (parseNatCh b).map (fun k => ClientRange.lastBytes (k : Int))
    | _, [] => (parseNatCh a).map (fun k => ClientRange.fromStart (k : Int))
    | _, _ =>
      match parseNatCh a, parseNatCh b with
      | some x, some y =>
        if (y : Int) < (x : Int) then none
        else some (ClientRange.fromTo (x : Int) (y : Int))
      | _, _ => none
  | _ => none

/-- Modelled from the spec: `swob.Range` parsing of a (possibly
comma-separated) byte-range set; any malformed part invalidates the
whole header. -/
def parseRangeSpec (s : String) : Option (List ClientRange) :=
  (splitOnCh ',' s.data).mapM parseRangePart

/-- Modelled from the spec: `swob.Range.ranges_for_length` for a single
range — normalize against the object length, returning the satisfiable
`(abs_start, abs_end)` pair (end exclusive), or nothing when the range
is unsatisfiable for that length. -/
def rangesForLength (r : ClientRange) (len : Int) : List (Int × Int) :=
  let p : Int × Int :=
    match r with
    | ClientRange.fromTo a b => (a, min (b + 1) len)
    | ClientRange.fromStart a => (a, len)
    | ClientRange.lastBytes k => (max 0 (len - k), len)
  if p.1 < p.2 ∧ p.1 < len then [p] else []

/-- One entry as `parse_and_validate_input` returns it: `path` and
`etag` as supplied, `size_bytes` coerced to an integer, `range` parsed
into a `swob.Range` (kept with its original string form). -/
structure ClientEntry where
  path : String
  etag : Option String
  size_bytes : Option Int
  crange : Option (ClientRange × String)
deriving DecidableEq

/-- The absolute object path `'/'.join(['', vrs, account, path.lstrip('/')])`. -/
def segObjPath (vrs account path : String) : String :=
  "/" ++ vrs ++ "/" ++ account ++ "/" ++ stripLeadSlashes path

/-- Per-entry validation of `parse_and_validate_input` (one iteration of
its loop, checks in source order; each entry reports at most its first
problem).  `n` is the number of entries and `i` this entry's index. -/
def validateEntry (reqPath vrs account : String) (minSeg : Int) (n i : Nat)
    (v : JVal) : Except String ClientEntry :=
  match v with
  | JVal.jobj fields =>
    if (jget fields "path").isNone || (jget fields "etag").isNone
        || (jget fields "size_bytes").isNone then
      Except.error ("Index " ++ toString i ++ ": missing keys")
    else if fields.any
        (fun p => !(["path", "etag", "size_bytes", "range"].contains p.1)) then
      Except.error ("Index " ++ toString i ++ ": extraneous keys")
    else
      match jget fields "path" with
      | some (JVal.jstr path) =>
        match (match jget fields "etag" with
               | some JVal.jnull => some none
               | some (JVal.jstr t) => some (some t)
               | _ => none) with
        | none =>
          Except.error ("Index " ++ toString i
            ++ ": etag must be a string or null")
        | some etagv =>
          if !(containsSlash (stripSlashes path)) then
            Except.error ("Index " ++ toString i
              ++ ": path does not refer to an object. Path must be of the "
              ++ "form /container/object.")
          else
            match (match jget fields "size_bytes" with
                   | some JVal.jnull => Except.ok (none : Option Int)
                   | some (JVal.jnum k) => Except.ok (some k)
                   | some (JVal.jbool b) =>
                     Except.ok (some (if b then (1 : Int) else 0))
                   | some (JVal.jstr s) =>
                     match parseIntStr s with
                     | some k => Except.ok (some k)
                     | none =>
                       Except.error ("Index " ++ toString i
                         ++ ": invalid size_bytes")
                   | _ =>
                     Except.error ("Index " ++ toString i
                       ++ ": invalid size_bytes")) with
            | Except.error msg => Except.error msg
            | Except.ok sizeB =>
              if (match sizeB with
                  | some k => decide (k < minSeg) && decide (i + 1 < n)
                  | none => false) then
                Except.error ("Index " ++ toString i ++ ": too small; each "
                  ++ "segment, except the last, must be at least "
                  ++ toString minSeg ++ " bytes.")
              else if reqPath = segObjPath vrs account path then
                Except.error ("Index " ++ toString i
                  ++ ": manifest must not include itself as a segment")
              else if jtruthy (jget fields "range") then
                match parseRangeSpec
                    (jstrOf ((jget fields "range").getD JVal.jnull)) with
                | none =>
                  Except.error ("Index " ++ toString i ++ ": invalid range")
                | some [r] =>
                  if (match sizeB with
                      | some k => decide ((rangesForLength r k).length ≠ 1)
                      | none => false) then
                    Except.error ("Index " ++ toString i
                      ++ ": unsatisfiable range")
                  else
                    Except.ok ⟨path, etagv, sizeB,
                      some (r, jstrOf ((jget fields "range").getD JVal.jnull))⟩
                | some _ =>
                  Except.error ("Index " ++ toString i
                    ++ ": multiple ranges (only one allowed)")
              else
                Except.ok ⟨path, etagv, sizeB, none⟩
      | _ =>
        Except.error ("Index " ++ toString i ++ ": path must be a string")
  | _ => Except.error ("Index " ++ toString i ++ ": not a JSON object")

/-- `parse_and_validate_input`: validate every entry, accumulating all
per-index errors; raise a single 400 listing them all, or return the
normalized entries. -/
def parseAndValidateInput (body : JVal) (reqPath vrs account : String)
    (minSeg : Int) : Except String (List ClientEntry) :=
  match body with
  | JVal.jarr xs =>
    (fun results =>
      (fun errs =>
        if List.isEmpty errs then
          Except.ok (results.filterMap (fun r =>
            match r with
            | Except.ok c => some c
            | Except.error _ => none))
        else
          Except.error (String.join (errs.map (fun m => m ++ "\n"))))
      (results.filterMap (fun r =>
        match r with
        | Except.error m => some m
        | Except.ok _ => none)))
    ((xs.enum).map (fun p =>
      validateEntry reqPath vrs account minSeg xs.length p.1 p.2))
  | _ => Except.error "Manifest must be a list.\n"

/-! ## Segment verification (`StaticLargeObject.handle_multipart_put`) -/

/-- Configuration of the middleware (PUT-relevant part). -/
structure SloConfig where
  minSegmentSize : Int
  maxManifestSegments : Nat
  maxManifestSize : Int
deriving DecidableEq

/-- The defaults: 1 MiB, 1000 segments, 2 MiB. -/
def defaultConfig : SloConfig := ⟨1048576, 1000, 2097152⟩

/-- A backend HEAD response for a segment (the fields the verification
loop reads). -/
structure HeadResp where
  success : Bool
  statusText : String
  contentLength : Int
  etag : String
  content_type : String
  isSlo : Bool
deriving DecidableEq

abbrev Backend := List (String × HeadResp)

def lookupHead (b : Backend) (p : String) : HeadResp :=
  match b.find? (fun x => x.1 == p) with
  | some x => x.2
  | none => ⟨false, "404 Not Found", 0, "", "", false⟩

/-- The state of a segment entry's range after normalization against the
observed Content-Length (`seg_dict['range']` after lines 780-799). -/
inductive PutRange where
  | norm (a b : Int)
  | unparsed (s : String)
deriving DecidableEq

/-- One entry of `data_for_storage` (the stored manifest being built);
`last_modified` is omitted: it copies the HEAD response's value, falling
back non-deterministically to `datetime.now()`, and no claim concerns
it. -/
structure PutSegData where
  name : String
  bytes : Int
  hash : String
  content_type : String
  prange : Option PutRange
  sub_slo : Bool
deriving DecidableEq

/-- Outcome of normalizing a client range against the observed length
(lines 780-799): range dropped because it covers the whole segment (or
was absent), concrete `A-B`, or left unnormalized because unsatisfiable
(which also records a problem). -/
inductive NormRange where
  | whole
  | norm (a b : Int)
  | unsat (raw : String)
deriving DecidableEq

/-- Range normalization: returns the resulting range state, the
effective `segment_length`, and whether an "Unsatisfiable Range" problem
was recorded. -/
def normalizeRange : Option (ClientRange × String) → Int →
    NormRange × Int × Bool
  | none, cl => (NormRange.whole, cl, false)
  | some (r, raw), cl =>
    match rangesForLength r cl with
    | [] => (NormRange.unsat raw, cl, true)
    | (a, b) :: _ =>
      if a = 0 ∧ b = cl then (NormRange.whole, cl, false)
      else (NormRange.norm a (b - 1), b - a, false)

def putRangeOf : NormRange → Option PutRange
  | NormRange.whole => none
  | NormRange.norm a b => some (PutRange.norm a b)
  | NormRange.unsat raw => some (PutRange.unparsed ("bytes=" ++ raw))

def putRangeStr : PutRange → String
  | PutRange.norm a b => toString a ++ "-" ++ toString b
  | PutRange.unparsed s => s

/-- The token fed to the running composite-ETag MD5 for one accepted
segment: the bare observed etag, or `etag ++ ":" ++ range ++ ";"`. -/
def putEtagToken (etag : String) : Option PutRange → String
  | none => etag
  | some r => etag ++ ":" ++ putRangeStr r ++ ";"

/-- State of the verification loop over manifest entries. -/
structure VerState where
  totalSize : Int
  problems : List (String × String)
  stored : List PutSegData
  etagInput : String
  lastHead : Option (String × HeadResp)
deriving DecidableEq

/-- The HEAD response used for this entry: consecutive identical object
paths reuse the previous response (`if obj_path != last_obj_path`). -/
def headFor (backend : Backend) (st : VerState) (objPath : String) :
    HeadResp :=
  match st.lastHead with
  | some (p, r) => if p = objPath then r else lookupHead backend objPath
  | none => lookupHead backend objPath

/-- One iteration of the verification loop (lines 758-843) given the
entry's HEAD response. -/
def verifyStepWith (cfg : SloConfig) (n : Nat) (st : VerState) (i : Nat)
    (e : ClientEntry) (objPath : String) (resp : HeadResp) : VerState :=
  if resp.success then
    ⟨st.totalSize + (normalizeRange e.crange resp.contentLength).2.1,
     st.problems
       ++ (if (normalizeRange e.crange resp.contentLength).2.2 then
             [(e.path, "Unsatisfiable Range")] else [])
       ++ (if (normalizeRange e.crange resp.contentLength).2.1
             < cfg.minSegmentSize ∧ i + 1 < n then
             [(e.path, "Too small")] else [])
       ++ (match e.size_bytes with
           | some sb =>
             if sb ≠ resp.contentLength then [(e.path, "Size Mismatch")]
             else []
           | none => [])
       ++ (if (match e.etag with
               | none => true
               | some t => t == resp.etag) then []
           else [(e.path, "Etag Mismatch")]),
     st.stored
       ++ [⟨"/" ++ stripLeadSlashes e.path, resp.contentLength, resp.etag,
            resp.content_type,
            putRangeOf (normalizeRange e.crange resp.contentLength).1,
            resp.isSlo⟩],
     st.etagInput
       ++ (if (match e.etag with
               | none => true
               | some t => t == resp.etag) then
             putEtagToken resp.etag
               (putRangeOf (normalizeRange e.crange resp.contentLength).1)
           else ""),
     some (objPath, resp)⟩
  else
    ⟨st.totalSize, st.problems ++ [(e.path, resp.statusText)], st.stored,
     st.etagInput, some (objPath, resp)⟩

def verifyStep (backend : Backend) (cfg : SloConfig) (vrs account : String)
    (n : Nat) (st : VerState) (ie : Nat × ClientEntry) : VerState :=
  verifyStepWith cfg n st ie.1 ie.2 (segObjPath vrs account ie.2.path)
    (headFor backend st (segObjPath vrs account ie.2.path))

def initVerState : VerState := ⟨0, [], [], "", none⟩

/-- The whole verification loop over the validated entries. -/
def verifySegments (backend : Backend) (cfg : SloConfig)
    (vrs account : String) (entries : List ClientEntry) : VerState :=
  (entries.enum).foldl (verifyStep backend cfg vrs account entries.length)
    initVerState

/-! ## `handle_multipart_put` -/

/-- The PUT request as `handle_multipart_put` sees it.  `body` is the
JSON-decoded manifest body (`none` models a body that is not valid
JSON); `contentLength` is the Content-Length header (`none` when
absent), and Python 2 compares `None > int` as false. -/
structure PutReq where
  vrs : String
  account : String
  container : String
  obj : String
  contentLength : Option Int
  chunked : Bool
  copyFrom : Bool
  body : Option JVal

def PutReq.path (req : PutReq) : String :=
  "/" ++ req.vrs ++ "/" ++ req.account ++ "/" ++ req.container ++ "/"
    ++ req.obj

/-- Outcome of a `?multipart-manifest=put`. -/
inductive PutOutcome where
  | tooLarge
  | methodNotAllowed
  | lengthRequired
  | badRequest (msg : String)
  | precondFailed (problems : List (String × String))
  | accepted (stored : List PutSegData) (totalSize : Int) (etagInput : String)
deriving DecidableEq

def isBadRequest400 : PutOutcome → Bool
  | PutOutcome.badRequest _ => true
  | PutOutcome.precondFailed _ => true
  | _ => false

/-- `StaticLargeObject.handle_multipart_put`, checks in source order:
413 when the declared Content-Length exceeds `max_manifest_size`; 405 on
`X-Copy-From`; 411 when there is no Content-Length and the transfer is
not chunked; then `parse_and_validate_input` (400 on any validation
error, including a non-JSON or non-list body); 413 when the parsed
manifest has more than `max_manifest_segments` entries; then the
verification loop (400 listing the problem segments); on success the
stored manifest, `total_size` and the composite-ETag input (whose MD5
hex digest replaces the backend response's ETag). -/
def handleMultipartPut (cfg : SloConfig) (backend : Backend) (req : PutReq) :
    PutOutcome :=
  if (match req.contentLength with
      | some k => decide (cfg.maxManifestSize < k)
      | none => false) then
    PutOutcome.tooLarge
  else if req.copyFrom then
    PutOutcome.methodNotAllowed
  else if req.contentLength.isNone && !req.chunked then
    PutOutcome.lengthRequired
  else
    match req.body with
    | none => PutOutcome.badRequest "Manifest must be valid JSON.\n"
    | some j =>
      match parseAndValidateInput j req.path req.vrs req.account
          cfg.minSegmentSize with
      | Except.error msg => PutOutcome.badRequest msg
      | Except.ok entries =>
        if cfg.maxManifestSegments < entries.length then
          PutOutcome.tooLarge
        else
          (fun st =>
            if st.problems.isEmpty then
              PutOutcome.accepted st.stored st.totalSize st.etagInput
            else
              PutOutcome.precondFailed st.problems)
          (verifySegments backend cfg req.vrs req.account entries)

/-! ## Cascading delete (`StaticLargeObject.get_segments_to_delete_iter`) -/

/-- A work item of the delete queue: a stored-manifest entry reduced to
the fields the deleter uses, plus the error annotation attached when a
sub-manifest fetch fails. -/
structure DelSeg where
  name : String
  sub_slo : Bool
  error : Option (Nat × String)
deriving DecidableEq

/-- The stored manifests reachable by `?multipart-manifest=get`, keyed
by `/container/object`. -/
abbrev DelStore := List (String × List DelSeg)

/-- `get_slo_segments` reduced to its delete-relevant behaviour: return
the manifest's entries, or an HTTP error (modelled here only by the
404 case for a missing manifest). -/
def getSloSegments (ds : DelStore) (name : String) :
    Except (Nat × String) (List DelSeg) :=
  match ds.find? (fun p => p.1 == name) with
  | some p => Except.ok p.2
  | none => Except.error (404, "SLO manifest not found")

/-- The `while segments:` loop of `get_segments_to_delete_iter`: check
the buffered-queue bound, pop the front item; a `sub_slo` item is
expanded (its manifest's entries are appended to the queue) and then
re-appended with `sub_slo = False`; other items are yielded.  `fuel`
bounds the number of loop iterations (`none` = ran out of fuel); the
Boolean is true when the loop aborted with the 400 "Too many buffered
slo segments to delete" error. -/
def deleteIterAux (ds : DelStore) (maxBuf : Nat) :
    Nat → List DelSeg → Option (List DelSeg × Bool)
  | 0, _ => none
  | _ + 1, [] => some ([], false)
  | fuel + 1, seg :: rest =>
    if maxBuf < (seg :: rest).length then some ([], true)
    else if seg.sub_slo then
      match getSloSegments ds seg.name with
      | Except.ok ch =>
        deleteIterAux ds maxBuf fuel (rest ++ ch ++ [⟨seg.name, false, seg.error⟩])
      | Except.error err =>
        deleteIterAux ds maxBuf fuel (rest ++ [⟨seg.name, false, some err⟩])
    else
      match deleteIterAux ds maxBuf fuel rest with
      | some (ys, aborted) => some (seg :: ys, aborted)
      | none => none

/-- `get_segments_to_delete_iter` for the manifest `/container/obj`:
the queue is seeded with the target marked `sub_slo = True`. -/
def getSegmentsToDeleteIter (ds : DelStore) (maxBuf fuel : Nat)
    (container obj : String) : Option (List DelSeg × Bool) :=
  deleteIterAux ds maxBuf fuel [⟨"/" ++ container ++ "/" ++ obj, true, none⟩]

/-! ## Claim C10 -/

/-- C10: on a GET/HEAD of an object carrying `X-Static-Large-Object`
(without `?multipart-manifest=get`), a manifest body that is not valid
JSON (`manifestJson = none`) produces no error: the `ValueError` handler
sets `segments = []`, and the response is built as a success with
Content-Length `0` and a composite ETag whose MD5 input is the empty
string (i.e. the ETag header is the MD5 digest of `""`, quoted). -/
theorem C10_invalid_json_as_empty :
    getOrHeadResponse none = ⟨0, "", []⟩ := rfl

/-! ## Claim C3 -/

/-- C3 as stated is false: a PUT with `?multipart-manifest=put` whose
body parses as the empty JSON list is not rejected with 400 — at the
concrete request below (declared length 2, not chunked, no copy header)
the middleware accepts it and stores a zero-segment manifest. -/
def c3req : PutReq :=
  ⟨"v1", "AUTH_test", "c", "man", some 2, false, false,
   some (JVal.jarr [])⟩

theorem C3_counterexample :
    isBadRequest400 (handleMultipartPut defaultConfig [] c3req) = false ∧
    handleMultipartPut defaultConfig [] c3req
      = PutOutcome.accepted [] 0 "" := by
  decide

/-- C3 (amended): a PUT with `?multipart-manifest=put` whose body parses
as an empty JSON list is accepted, not rejected: validation finds no
errors in zero entries, the verification loop records no problems, and
the middleware stores an empty manifest with total size 0 and an empty
composite-ETag input (so the SLO's ETag is the MD5 of the empty
string). -/
theorem C3_empty_manifest_accepted (cfg : SloConfig) (backend : Backend)
    (req : PutReq)
    (h1 : (match req.contentLength with
           | some k => decide (cfg.maxManifestSize < k)
           | none => false) = false)
    (h2 : req.copyFrom = false)
    (h3 : (req.contentLength.isNone && !req.chunked) = false)
    (h4 : req.body = some (JVal.jarr [])) :
    handleMultipartPut cfg backend req = PutOutcome.accepted [] 0 "" := by
  unfold handleMultipartPut
  rw [h1, h2, h3, h4]
  simp only [Bool.false_eq_true, if_false]
  have hp : parseAndValidateInput (JVal.jarr []) req.path req.vrs req.account
      cfg.minSegmentSize = Except.ok [] := rfl
  rw [hp]
  rfl

theorem C3_empty_manifest_accepted_witness :
    handleMultipartPut defaultConfig [] c3req
      = PutOutcome.accepted [] 0 "" :=
  C3_empty_manifest_accepted defaultConfig [] c3req (by decide) (by decide)
    (by decide) rfl

/-! ## Claim C9 -/

/-- C9: a `?multipart-manifest=put` is rejected with 413 whenever the
request body (its declared Content-Length, which is what the code
compares) exceeds `max_manifest_size`, and likewise — provided the
request passes the earlier 405/411 guards and its body validates — when
the parsed manifest has more than `max_manifest_segments` entries. -/
theorem C9_put_size_limits :
    (∀ (cfg : SloConfig) (backend : Backend) (req : PutReq) (k : Int),
      req.contentLength = some k → cfg.maxManifestSize < k →
      handleMultipartPut cfg backend req = PutOutcome.tooLarge) ∧
    (∀ (cfg : SloConfig) (backend : Backend) (req : PutReq) (j : JVal)
        (entries : List ClientEntry),
      req.copyFrom = false →
      (req.contentLength.isNone && !req.chunked) = false →
      req.body = some j →
      parseAndValidateInput j req.path req.vrs req.account cfg.minSegmentSize
        = Except.ok entries →
      cfg.maxManifestSegments < entries.length →
      handleMultipartPut cfg backend req = PutOutcome.tooLarge) := by
  constructor
  · intro cfg backend req k hcl hbig
    unfold handleMultipartPut
    rw [hcl]
    simp [hbig]
  · intro cfg backend req j entries h2 h3 h4 hparse hcount
    unfold handleMultipartPut
    by_cases h1 : (match req.contentLength with
                   | some k => decide (cfg.maxManifestSize < k)
                   | none => false) = true
    · rw [if_pos h1]
    · rw [if_neg h1, h2, h3, h4]
      simp only [Bool.false_eq_true, if_false]
      rw [hparse]
      exact if_pos hcount

def c9bigReq : PutReq :=
  ⟨"v1", "AUTH_test", "c", "man", some 3000000, false, false,
   some (JVal.jarr [])⟩

def c9smallCfg : SloConfig := ⟨1, 0, 2097152⟩

def c9oneReq : PutReq :=
  ⟨"v1", "AUTH_test", "c", "man", some 50, false, false,
   some (JVal.jarr [JVal.jobj
     [("path", JVal.jstr "/c/a"), ("etag", JVal.jnull),
      ("size_bytes", JVal.jnull)]])⟩

theorem C9_put_size_limits_witness :
    handleMultipartPut defaultConfig [] c9bigReq = PutOutcome.tooLarge ∧
    handleMultipartPut c9smallCfg [] c9oneReq = PutOutcome.tooLarge :=
  ⟨C9_put_size_limits.1 defaultConfig [] c9bigReq 3000000 rfl (by decide),
   C9_put_size_limits.2 c9smallCfg [] c9oneReq
     (JVal.jarr [JVal.jobj
       [("path", JVal.jstr "/c/a"), ("etag", JVal.jnull),
        ("size_bytes", JVal.jnull)]])
     [⟨"/c/a", none, none, none⟩] rfl (by decide) rfl rfl (by decide)⟩

/-! ## Claim C2 -/

def c2store : DelStore :=
  [("/c/m", [⟨"/c/s1", false, none⟩, ⟨"/c/m2", true, none⟩]),
   ("/c/m2", [⟨"/c/s2", false, none⟩, ⟨"/c/s3", false, none⟩])]

/-- C2 as stated is false.  Deleting `/c/m`, where `m` references
`[s1, m2]` and `m2` references `[s2, s3]`, does not yield deletes in the
claimed order `s1, s2, s3, m2, m`: when `m` is expanded, it is
re-appended behind its direct entries `[s1, m2]`, but when `m2` is in
turn expanded, its children go to the back of the queue — behind `m` —
so `m` is deleted before `s2`, `s3` and `m2`. -/
theorem C2_counterexample :
    (getSegmentsToDeleteIter c2store 10000 50 "c" "m").map
        (fun r => r.1.map DelSeg.name)
      ≠ some ["/c/s1", "/c/s2", "/c/s3", "/c/m2", "/c/m"] := by
  decide

/-- C2 (amended): during a cascading delete, each manifest is re-queued
behind its direct entries (so it is dequeued after them), but children
of a sub-manifest are appended to the back of the queue, behind any
already-queued ancestor manifest; in scenario S6 the emitted delete
order is `s1, m, s2, s3, m2` (and the walk terminates without the
buffered-queue error). -/
theorem C2_delete_order :
    getSegmentsToDeleteIter c2store 10000 50 "c" "m"
      = some ([⟨"/c/s1", false, none⟩, ⟨"/c/m", false, none⟩,
               ⟨"/c/s2", false, none⟩, ⟨"/c/s3", false, none⟩,
               ⟨"/c/m2", false, none⟩], false) := by
  decide

/-! ## Claim C4 -/

/-- Conversion of a `data_for_storage` entry into the stored-manifest
entry the GET path reads back (the JSON round trip; a concrete range
`A-B` string parses back into the pair `(A, B)`). -/
def putSegToStored (d : PutSegData) : StoredSeg :=
  ⟨d.name, d.hash, d.bytes,
   (match d.prange with
    | some (PutRange.norm a b) => some (a, b)
    | _ => none),
   d.sub_slo⟩

/-- The concatenation, in declared order, of the composite-ETag tokens
of the stored entries. -/
def putEtagConcat (ds : List PutSegData) : String :=
  ds.foldr (fun d acc => putEtagToken d.hash d.prange ++ acc) ""

/-- No entry kept an unnormalized (unsatisfiable) range. -/
def noUnparsed (ds : List PutSegData) : Bool :=
  ds.all (fun d =>
    match d.prange with
    | some (PutRange.unparsed _) => false
    | _ => true)

theorem putEtagConcat_append (ds : List PutSegData) (d : PutSegData) :
    putEtagConcat (ds ++ [d])
      = putEtagConcat ds ++ putEtagToken d.hash d.prange := by
  induction ds with
  | nil =>
    show putEtagToken d.hash d.prange ++ "" = "" ++ putEtagToken d.hash d.prange
    rw [String.append_empty, String.empty_append]
  | cons x xs ih =>
    show putEtagToken x.hash x.prange ++ putEtagConcat (xs ++ [d])
      = (putEtagToken x.hash x.prange ++ putEtagConcat xs)
        ++ putEtagToken d.hash d.prange
    rw [ih, String.append_assoc]

theorem noUnparsed_append (ds : List PutSegData) (d : PutSegData) :
    noUnparsed (ds ++ [d])
      = (noUnparsed ds &&
          (match d.prange with
           | some (PutRange.unparsed _) => false
           | _ => true)) := by
  simp [noUnparsed, List.all_append]

theorem putRangeOf_not_unparsed (cr : Option (ClientRange × String))
    (cl : Int) (h : (normalizeRange cr cl).2.2 = false) :
    (match putRangeOf (normalizeRange cr cl).1 with
     | some (PutRange.unparsed _) => false
     | _ => true) = true := by
  cases cr with
  | none => rfl
  | some rr =>
    obtain ⟨r, raw⟩ := rr
    simp only [normalizeRange] at h ⊢
    cases hr : rangesForLength r cl with
    | nil => rw [hr] at h; simp at h
    | cons ab rest =>
      obtain ⟨a, b⟩ := ab
      by_cases hab : a = 0 ∧ b = cl
      · simp [if_pos hab, putRangeOf]
      · simp [if_neg hab, putRangeOf]

/-- The per-entry ETag tokens agree between PUT time and the GET-time
recomputation from the stored entry, for normalized ranges. -/
theorem putEtagToken_align (d : PutSegData)
    (h : (match d.prange with
          | some (PutRange.unparsed _) => false
          | _ => true) = true) :
    putEtagToken d.hash d.prange = etagTokenStored (putSegToStored d) := by
  cases hp : d.prange with
  | none => simp [putEtagToken, etagTokenStored, putSegToStored, hp]
  | some r =>
    cases r with
    | norm a b =>
      simp [putEtagToken, etagTokenStored, putSegToStored, hp, putRangeStr,
        rangeStr]
    | unparsed s => rw [hp] at h; simp at h

theorem strFoldl_tokens (segs : List StoredSeg) :
    ∀ init, List.foldl (fun acc e => acc ++ etagTokenStored e) init segs
      = init ++ List.foldr (fun e acc => etagTokenStored e ++ acc) "" segs := by
  induction segs with
  | nil => intro init; rw [List.foldl_nil, List.foldr_nil, String.append_empty]
  | cons e es ih =>
    intro init
    rw [List.foldl_cons, List.foldr_cons, ih, String.append_assoc]

theorem putEtagConcat_eq_getEtagInput (ds : List PutSegData)
    (h : noUnparsed ds = true) :
    putEtagConcat ds = getEtagInput (ds.map putSegToStored) := by
  induction ds with
  | nil => rfl
  | cons d rest ih =>
    have hd : (match d.prange with
               | some (PutRange.unparsed _) => false
               | _ => true) = true := by
      simp only [noUnparsed, List.all_cons, Bool.and_eq_true] at h
      exact h.1
    have hrest : noUnparsed rest = true := by
      simp only [noUnparsed, List.all_cons, Bool.and_eq_true] at h
      exact h.2
    show putEtagToken d.hash d.prange ++ putEtagConcat rest
      = getEtagInput (putSegToStored d :: rest.map putSegToStored)
    rw [putEtagToken_align d hd, ih hrest]
    unfold getEtagInput
    rw [List.foldl_cons, strFoldl_tokens, strFoldl_tokens,
      String.empty_append, String.empty_append]

/-- A verification step only appends to the problem list. -/
theorem verifyStep_problems_mono (backend : Backend) (cfg : SloConfig)
    (vrs account : String) (n : Nat) (st : VerState)
    (ie : Nat × ClientEntry) :
    ∃ d, (verifyStep backend cfg vrs account n st ie).problems
      = st.problems ++ d := by
  unfold verifyStep verifyStepWith
  by_cases hsucc :
      (headFor backend st (segObjPath vrs account ie.2.path)).success = true
  · rw [if_pos hsucc]
    exact ⟨_, by rw [List.append_assoc, List.append_assoc, List.append_assoc]⟩
  · rw [if_neg hsucc]
    exact ⟨_, rfl⟩

theorem verify_foldl_problems_mono (backend : Backend) (cfg : SloConfig)
    (vrs account : String) (n : Nat) :
    ∀ (entries : List (Nat × ClientEntry)) (st : VerState),
      ∃ d, (List.foldl (verifyStep backend cfg vrs account n) st
        entries).problems = st.problems ++ d := by
  intro entries
  induction entries with
  | nil => intro st; exact ⟨[], by simp⟩
  | cons e es ih =>
    intro st
    obtain ⟨d2, hd2⟩ := ih (verifyStep backend cfg vrs account n st e)
    obtain ⟨d1, hd1⟩ :=
      verifyStep_problems_mono backend cfg vrs account n st e
    refine ⟨d1 ++ d2, ?_⟩
    rw [List.foldl_cons, hd2, hd1, List.append_assoc]

/-- Field equations for a successful verification step. -/
theorem verifyStepWith_success_fields (cfg : SloConfig) (n : Nat)
    (st : VerState) (i : Nat) (e : ClientEntry) (objPath : String)
    (resp : HeadResp) (hsucc : resp.success = true) :
    (verifyStepWith cfg n st i e objPath resp).stored
      = st.stored
        ++ [⟨"/" ++ stripLeadSlashes e.path, resp.contentLength, resp.etag,
             resp.content_type,
             putRangeOf (normalizeRange e.crange resp.contentLength).1,
             resp.isSlo⟩] ∧
    (verifyStepWith cfg n st i e objPath resp).etagInput
      = st.etagInput
        ++ (if (match e.etag with
                | none => true
                | some t => t == resp.etag) then
              putEtagToken resp.etag
                (putRangeOf (normalizeRange e.crange resp.contentLength).1)
            else "") ∧
    (verifyStepWith cfg n st i e objPath resp).problems
      = st.problems
        ++ (if (normalizeRange e.crange resp.contentLength).2.2 then
              [(e.path, "Unsatisfiable Range")] else [])
        ++ (if (normalizeRange e.crange resp.contentLength).2.1
              < cfg.minSegmentSize ∧ i + 1 < n then
              [(e.path, "Too small")] else [])
        ++ (match e.size_bytes with
            | some sb =>
              if sb ≠ resp.contentLength then [(e.path, "Size Mismatch")]
              else []
            | none => [])
        ++ (if (match e.etag with
                | none => true
                | some t => t == resp.etag) then []
            else [(e.path, "Etag Mismatch")]) ∧
    (verifyStepWith cfg n st i e objPath resp).totalSize
      = st.totalSize + (normalizeRange e.crange resp.contentLength).2.1 := by
  unfold verifyStepWith
  rw [if_pos hsucc]
  exact ⟨rfl, rfl, rfl, rfl⟩

/-- Field equations for a failed HEAD. -/
theorem verifyStepWith_failure_fields (cfg : SloConfig) (n : Nat)
    (st : VerState) (i : Nat) (e : ClientEntry) (objPath : String)
    (resp : HeadResp) (hsucc : ¬ resp.success = true) :
    (verifyStepWith cfg n st i e objPath resp).stored = st.stored ∧
    (verifyStepWith cfg n st i e objPath resp).etagInput = st.etagInput ∧
    (verifyStepWith cfg n st i e objPath resp).problems
      = st.problems ++ [(e.path, resp.statusText)] := by
  unfold verifyStepWith
  rw [if_neg hsucc]
  exact ⟨rfl, rfl, rfl⟩

/-- A step that records no new problem preserves the composite-ETag
invariant: the ETag input is exactly the token concatenation over the
stored entries, and no stored entry kept an unnormalized range. -/
theorem verifyStep_clean_invariant (backend : Backend) (cfg : SloConfig)
    (vrs account : String) (n : Nat) (st : VerState) (ie : Nat × ClientEntry)
    (hinv1 : st.etagInput = putEtagConcat st.stored)
    (hinv2 : noUnparsed st.stored = true)
    (hclean : (verifyStep backend cfg vrs account n st ie).problems
      = st.problems) :
    (verifyStep backend cfg vrs account n st ie).etagInput
      = putEtagConcat (verifyStep backend cfg vrs account n st ie).stored ∧
    noUnparsed (verifyStep backend cfg vrs account n st ie).stored = true := by
  unfold verifyStep at hclean ⊢
  by_cases hsucc :
      (headFor backend st (segObjPath vrs account ie.2.path)).success = true
  · obtain ⟨hst, het, hpr, _⟩ :=
      verifyStepWith_success_fields cfg n st ie.1 ie.2
        (segObjPath vrs account ie.2.path)
        (headFor backend st (segObjPath vrs account ie.2.path)) hsucc
    rw [hpr] at hclean
    have hlen := congrArg List.length hclean
    simp only [List.length_append] at hlen
    by_cases hunsat : (normalizeRange ie.2.crange
        (HeadResp.contentLength
          (headFor backend st (segObjPath vrs account ie.2.path)))).2.2
        = true
    · exfalso
      rw [if_pos hunsat] at hlen
      simp at hlen
      omega
    · have hunsat' : (normalizeRange ie.2.crange
          (HeadResp.contentLength
            (headFor backend st (segObjPath vrs account ie.2.path)))).2.2
          = false := by
        revert hunsat
        cases (normalizeRange ie.2.crange
          (HeadResp.contentLength
            (headFor backend st (segObjPath vrs account ie.2.path)))).2.2 <;>
          simp
      by_cases hetag : (match ie.2.etag with
            | none => true
            | some t =>
              t == (headFor backend st
                (segObjPath vrs account ie.2.path)).etag) = true
      · constructor
        · rw [het, hst, if_pos hetag, putEtagConcat_append, hinv1]
        · rw [hst, noUnparsed_append, hinv2, Bool.true_and]
          exact putRangeOf_not_unparsed _ _ hunsat'
      · exfalso
        rw [if_neg hetag] at hlen
        simp at hlen
        omega
  · exfalso
    obtain ⟨_, _, hpr⟩ :=
      verifyStepWith_failure_fields cfg n st ie.1 ie.2
        (segObjPath vrs account ie.2.path)
        (headFor backend st (segObjPath vrs account ie.2.path)) hsucc
    rw [hpr] at hclean
    have hlen := congrArg List.length hclean
    simp at hlen

/-- The verification fold preserves the composite-ETag invariant along
any run that records no problems. -/
theorem verify_fold_invariant (backend : Backend) (cfg : SloConfig)
    (vrs account : String) (n : Nat) :
    ∀ (entries : List (Nat × ClientEntry)) (st : VerState),
      st.etagInput = putEtagConcat st.stored →
      noUnparsed st.stored = true →
      (List.foldl (verifyStep backend cfg vrs account n) st entries).problems
        = st.problems →
      (List.foldl (verifyStep backend cfg vrs account n) st
          entries).etagInput
        = putEtagConcat (List.foldl (verifyStep backend cfg vrs account n)
            st entries).stored ∧
      noUnparsed (List.foldl (verifyStep backend cfg vrs account n) st
          entries).stored = true := by
  intro entries
  induction entries with
  | nil => intro st h1 h2 _; exact ⟨h1, h2⟩
  | cons e es ih =>
    intro st h1 h2 hclean
    rw [List.foldl_cons] at hclean ⊢
    obtain ⟨d1, hd1⟩ := verifyStep_problems_mono backend cfg vrs account n st e
    obtain ⟨d2, hd2⟩ := verify_foldl_problems_mono backend cfg vrs account n
      es (verifyStep backend cfg vrs account n st e)
    rw [hd2, hd1, List.append_assoc] at hclean
    have hlen : d1 = [] ∧ d2 = [] := by
      have hlen := congrArg List.length hclean
      simp [List.length_append] at hlen
      exact hlen
    have hd1nil : d1 = [] := hlen.1
    have hd2nil : d2 = [] := hlen.2
    have hstepclean : (verifyStep backend cfg vrs account n st e).problems
        = st.problems := by
      rw [hd1, hd1nil, List.append_nil]
    obtain ⟨g1, g2⟩ := verifyStep_clean_invariant backend cfg vrs account n
      st e h1 h2 hstepclean
    exact ih (verifyStep backend cfg vrs account n st e) g1 g2
      (by rw [hd2, hd2nil, List.append_nil])

/-- C4: when verification succeeds (no problem segments), the
composite-ETag input accumulated at PUT time is exactly the
concatenation, over the accepted segments in declared order, of
`actual_etag` for a whole segment or
`actual_etag ++ ":" ++ normalized_range ++ ";"` for a ranged one — so
the surfaced ETag is the hex MD5 digest of that concatenation; and the
GET/HEAD-time recomputation from the stored entries' `hash` and `range`
fields (`get_or_head_response`) produces the identical MD5 input, i.e.
the same composite ETag. -/
theorem C4_composite_etag (backend : Backend) (cfg : SloConfig)
    (vrs account : String) (entries : List ClientEntry)
    (hok : (verifySegments backend cfg vrs account entries).problems = []) :
    (verifySegments backend cfg vrs account entries).etagInput
      = putEtagConcat
          (verifySegments backend cfg vrs account entries).stored ∧
    (verifySegments backend cfg vrs account entries).etagInput
      = getEtagInput
          ((verifySegments backend cfg vrs account entries).stored.map
            putSegToStored) ∧
    (getOrHeadResponse (some
        ((verifySegments backend cfg vrs account entries).stored.map
          putSegToStored))).etagInput
      = (verifySegments backend cfg vrs account entries).etagInput := by
  unfold verifySegments at hok ⊢
  have h := verify_fold_invariant backend cfg vrs account entries.length
    entries.enum initVerState rfl rfl hok
  obtain ⟨h1, h2⟩ := h
  refine ⟨h1, ?_, ?_⟩
  · rw [h1, putEtagConcat_eq_getEtagInput _ h2]
  · show getEtagInput
        ((List.foldl (verifyStep backend cfg vrs account entries.length)
          initVerState entries.enum).stored.map putSegToStored)
      = (List.foldl (verifyStep backend cfg vrs account entries.length)
          initVerState entries.enum).etagInput
    rw [h1, putEtagConcat_eq_getEtagInput _ h2]

def c4backend : Backend :=
  [("/v1/a/c/a", ⟨true, "200 OK", 4, "e1", "t", false⟩),
   ("/v1/a/c/b", ⟨true, "200 OK", 512, "e2", "t", false⟩)]

def c4cfg : SloConfig := ⟨1, 1000, 2097152⟩

def c4entries : List ClientEntry :=
  [⟨"/c/a", some "e1", some 4, none⟩,
   ⟨"/c/b", none, none, some (ClientRange.fromTo 1 2, "1-2")⟩]

/-- Witness for C4 at a concrete two-entry manifest (one whole, one
ranged segment): the accumulated MD5 input is `"e1e2:1-2;"` on both the
PUT and the GET sides. -/
theorem C4_composite_etag_witness :
    (verifySegments c4backend c4cfg "v1" "a" c4entries).etagInput
      = putEtagConcat (verifySegments c4backend c4cfg "v1" "a"
          c4entries).stored ∧
    (verifySegments c4backend c4cfg "v1" "a" c4entries).etagInput
      = getEtagInput ((verifySegments c4backend c4cfg "v1" "a"
          c4entries).stored.map putSegToStored) ∧
    (getOrHeadResponse (some ((verifySegments c4backend c4cfg "v1" "a"
        c4entries).stored.map putSegToStored))).etagInput
      = (verifySegments c4backend c4cfg "v1" "a" c4entries).etagInput :=
  C4_composite_etag c4backend c4cfg "v1" "a" c4entries (by decide)

/-! ## Claim C8 -/

/-- C8: during segment verification, if a client entry's range,
normalized against the segment's actual Content-Length, covers exactly
the whole segment `[0, actual_len)`, then the range is dropped: the
stored entry carries no range, the effective length added to
`total_size` is the full `actual_len`, and (when the entry's etag is
accepted) the composite ETag is fed the bare etag token rather than the
ranged token. -/
theorem C8_whole_range_dropped (cfg : SloConfig) (n : Nat) (st : VerState)
    (i : Nat) (e : ClientEntry) (objPath : String) (resp : HeadResp)
    (hsucc : resp.success = true) (r : ClientRange) (raw : String)
    (hcr : e.crange = some (r, raw))
    (hnorm : rangesForLength r resp.contentLength
      = [(0, resp.contentLength)])
    (hetag : e.etag = none ∨ e.etag = some resp.etag) :
    (verifyStepWith cfg n st i e objPath resp).stored
      = st.stored
        ++ [⟨"/" ++ stripLeadSlashes e.path, resp.contentLength, resp.etag,
             resp.content_type, none, resp.isSlo⟩] ∧
    (verifyStepWith cfg n st i e objPath resp).totalSize
      = st.totalSize + resp.contentLength ∧
    (verifyStepWith cfg n st i e objPath resp).etagInput
      = st.etagInput ++ resp.etag := by
  have hnr : normalizeRange e.crange resp.contentLength
      = (NormRange.whole, resp.contentLength, false) := by
    rw [hcr]
    simp [normalizeRange, hnorm]
  have hetag' : (match e.etag with
      | none => true
      | some t => t == resp.etag) = true := by
    rcases hetag with h | h <;> rw [h] <;> simp
  obtain ⟨hst, het, _, htot⟩ :=
    verifyStepWith_success_fields cfg n st i e objPath resp hsucc
  refine ⟨?_, ?_, ?_⟩
  · rw [hst, hnr]
    rfl
  · rw [htot, hnr]
  · rw [het, hnr, if_pos hetag']
    rfl

def c8resp : HeadResp := ⟨true, "200 OK", 1000, "ex", "text/plain", false⟩

def c8entry : ClientEntry :=
  ⟨"/c/x", some "ex", some 1000, some (ClientRange.fromTo 0 999, "0-999")⟩

/-- Witness for C8: scenario S5 — entry
`{"path": "/c/x", "etag": "ex", "size_bytes": 1000, "range": "0-999"}`
against a 1000-byte segment: the stored entry has no range and the
composite ETag is fed `"ex"`, not `"ex:0-999;"`. -/
theorem C8_whole_range_dropped_witness :
    (verifyStepWith defaultConfig 1 initVerState 0 c8entry
        "/v1/AUTH_test/c/x" c8resp).stored
      = [⟨"/c/x", 1000, "ex", "text/plain", none, false⟩] ∧
    (verifyStepWith defaultConfig 1 initVerState 0 c8entry
        "/v1/AUTH_test/c/x" c8resp).totalSize = 0 + 1000 ∧
    (verifyStepWith defaultConfig 1 initVerState 0 c8entry
        "/v1/AUTH_test/c/x" c8resp).etagInput = "" ++ "ex" :=
  C8_whole_range_dropped defaultConfig 1 initVerState 0 c8entry
    "/v1/AUTH_test/c/x" c8resp rfl (ClientRange.fromTo 0 999) "0-999" rfl
    (by decide) (Or.inr rfl)
